import Mathlib

/-!
Verification of the ZPDES adaptive curriculum engine (`zpdes.py`).

The source is a single Python file implementing a hierarchical multi-armed
bandit with a staged curriculum ("zone of proximal development"): value arms
grouped into parameters, parameters into groups, a traversal following the
last drawn arm's successor link, a trend reward from recent scores, bandit
weight updates, stage advancement and rule-based retirement of arms.

Embedding conventions:
* Python floats are modelled as exact rationals (ℚ); `np.mean`, `np.sum`,
  `np.min` become exact list operations.
* `np.exp` inside `softmax` is an abstract parameter `eexp : ℚ → ℚ` of the
  sampling functions; claims about the sampling distribution are about the
  probability vector handed to the draw.
* `np.random.choice(candidates, p=...)` is modelled by `npChoice`: it fails
  on an empty candidate list (numpy raises there) and otherwise resolves the
  draw through a random oracle `o : ℕ → ℕ`, one oracle value per parameter.
* Python dicts (`groups_dict`, `params_dict`, `values_dict`) are
  insertion-ordered lists looked up by label; every container of the built-in
  configuration has pairwise-distinct labels, so first-match lookup agrees
  with dict lookup.
* Methods that mutate `self` become state-passing functions; methods that the
  source makes read-only thread the state through unchanged, and the frame
  claims prove that the returned state equals the input state.
* The back references `value.param` / `value.group` built by `set_param` /
  `set_group` are replaced by passing the owning parameter's value list to
  `Value.activate` explicitly, which is the only place the back reference is
  read.
-/

namespace Zpdes

/-- Arithmetic mean of a list of rationals, the model of `np.mean`. -/
def listMean (l : List ℚ) : ℚ := l.sum / (l.length : ℚ)

/-- Minimum of a nonempty list of rationals, the model of `np.min`. The
source never applies it to an empty list (the list always contains the arm
being activated); the `[]` case is junk. -/
def npMin1 : List ℚ → ℚ
  | [] => 0
  | x :: xs => xs.foldl min x

/-- The last `k` elements of a list, the model of the Python slice `l[-k:]`. -/
def lastN (k : ℕ) (l : List α) : List α := l.drop (l.length - k)

/-- Replace the element at one position by modifying it in place; positions
out of range are left alone. This models in-place mutation of one object in
a Python list. -/
def listModify (f : α → α) : ℕ → List α → List α
  | _, [] => []
  | 0, a :: as => f a :: as
  | n + 1, a :: as => a :: listModify f n as

/-- Modify the first element satisfying `p`, the model of writing through a
dict lookup when keys are the labels of the elements. -/
def modifyFirst (p : α → Bool) (f : α → α) : List α → List α
  | [] => []
  | a :: as => if p a then f a :: as else a :: modifyFirst p f as

/-- One selectable value arm (class `Value` of the source): label, code, the
label of the successor group (`next`), the active flag, the bandit weight,
the score history and the stage at which the arm activates. -/
structure Value where
  label : String
  code : String
  next : Option String
  active : Bool
  weight : ℚ
  scores : List ℚ
  activation : ℕ
  deriving Repr, DecidableEq

/-- Constructor matching the Python signature: the configuration only ever
sets `label`, `code`, `next`, `active` and `activation`; `weight` defaults to
0 and `scores` starts empty. -/
def mkV (label code : String) (next : Option String) (active : Bool)
    (activation : ℕ) : Value :=
  ⟨label, code, next, active, 0, [], activation⟩

/-- Success-rate metric of an arm (`Value.success_rate`): 0 when there are no
scores or the arm is inactive, else the mean of the full history when fewer
than 4 scores were recorded, else the mean of the last 4 scores. -/
def Value.success_rate (v : Value) : ℚ :=
  if v.scores.length = 0 ∨ v.active = false then 0
  else if v.scores.length < 4 then listMean v.scores
  else listMean (lastN 4 v.scores)

/-- Activation of an arm (`Value.activate`): a no-op on an already active
arm; otherwise the arm becomes active and its weight is re-seeded to the
minimum over its parameter's arms of (weight if active else 1000).
`paramValues` is the owning parameter's value list (`self.param.values` in
the source) *as read by the list comprehension*: the source executes
`self.active = True` before taking the minimum, so the list it reads shows
the arm itself as active, contributing its own old weight to the minimum
(the caller `activateStep` passes the list with the arm's flag already
flipped). -/
def Value.activate (v : Value) (paramValues : List Value) : Value :=
  if v.active then v
  else { v with
    active := true
    weight := npMin1 (paramValues.map fun u => if u.active then u.weight else 1000) }

/-- A parameter (class `Param`): a label and its ordered list of value arms.
The source also keeps `values_dict`; labels are pairwise distinct within a
parameter in the built-in configuration, so lookup by label is first-match
on the list. -/
structure Param where
  label : String
  values : List Value
  deriving Repr, DecidableEq

/-- `Param.weight`: the ordered list of the parameter's arm weights. -/
def Param.weight (p : Param) : List ℚ := p.values.map Value.weight

/-- A group (class `Group`): a label and its insertion-ordered parameters. -/
structure Group where
  label : String
  params : List Param
  deriving Repr, DecidableEq

/-- `Group.weight`: per parameter, the ordered list of arm weights. -/
def Group.weight (g : Group) : List (List ℚ) := g.params.map Param.weight

/-- The activity space (class `ActivitySpace`): the ZPD stage counter
(`zpd_timestamp`, initialized to 1) and the insertion-ordered groups. -/
structure ActivitySpace where
  zpd_timestamp : ℕ
  groups : List Group
  deriving Repr, DecidableEq

/-- `ActivitySpace.weights`: per group, per parameter, the arm weights. -/
def ActivitySpace.weights (as : ActivitySpace) : List (List (List ℚ)) :=
  as.groups.map Group.weight

/-- `ActivitySpace.add_values`: create the group and the parameter when
absent (first registration fixes the insertion order), then append the given
arms to the parameter's value list. -/
def ActivitySpace.add_values (as : ActivitySpace) (group_label param_label : String)
    (vs : List Value) : ActivitySpace :=
  let gs :=
    if as.groups.any (fun g => g.label = group_label) then as.groups
    else as.groups ++ [⟨group_label, []⟩]
  let gs :=
    modifyFirst (fun g => g.label = group_label)
      (fun g =>
        let ps :=
          if g.params.any (fun p => p.label = param_label) then g.params
          else g.params ++ [⟨param_label, []⟩]
        { g with
          params :=
            modifyFirst (fun p => p.label = param_label)
              (fun p => { p with values := p.values ++ vs }) ps })
      gs
  { as with groups := gs }

/-- The built-in activity space of `ZPDES.init_activity_space`, translated
call for call. -/
def initAS : ActivitySpace :=
  let as : ActivitySpace := ⟨1, []⟩
  let as := as.add_values "Type" "Type"
    [mkV "flexibility" "F" (some "Flexibility Motion") true 1,
     mkV "quality" "Q" (some "Quality Movement Level") false 2]
  let as := as.add_values "Flexibility Motion" "Motion"
    [mkV "extension" "E" (some "Flexibility Extension") true 1,
     mkV "lateroflexion" "LF" (some "Flexibility Lateroflexion") true 1,
     mkV "rotation" "R" (some "Flexibility Level") true 1]
  let as := as.add_values "Flexibility Extension" "Movement"
    [mkV "peek-a-boo" "PB" (some "Flexibility Level") true 1,
     mkV "back bending" "BB" (some "Flexibility Level") true 1]
  let as := as.add_values "Flexibility Lateroflexion" "Position"
    [mkV "seated" "S" (some "Flexibility Level") true 1,
     mkV "upright" "U" (some "Flexibility Level") true 1]
  let as := as.add_values "Flexibility Level" "Level"
    [mkV "level 1" "1" none true 1,
     mkV "level 2" "2" none false 3,
     mkV "level 3" "3" none false 4]
  let as := as.add_values "Quality Movement Level" "Level"
    [mkV "movement level 1" "B" none false 2,
     mkV "movement level 2" "" (some "Quality Movement 2") false 3,
     mkV "movement level 3" "FUR" (some "Quality Movement 3") false 5]
  let as := as.add_values "Quality Movement 2" "Movement"
    [mkV "seated balance rotations" "R" none false 3,
     mkV "seated balance foot up" "FU" none false 3,
     mkV "seated balance lateral movements" "LM" none false 3,
     mkV "seated balance torso rotations" "TR" none false 3]
  let as := as.add_values "Quality Movement 2" "Level"
    [mkV "level 1" "1" none false 3,
     mkV "level 2" "2" none false 4,
     mkV "level 3" "3" none false 5]
  let as := as.add_values "Quality Movement 3" "Level"
    [mkV "level 1" "1" none false 5,
     mkV "level 2" "2" none false 6,
     mkV "level 3" "3" none false 7]
  as

/-- The groups of `initAS` written out (the result of the nine `add_values`
calls); `initAS_eq` proves the correspondence. -/
def initASList : List Group :=
  [⟨"Type", [⟨"Type",
      [⟨"flexibility", "F", some "Flexibility Motion", true, 0, [], 1⟩,
       ⟨"quality", "Q", some "Quality Movement Level", false, 0, [], 2⟩]⟩]⟩,
   ⟨"Flexibility Motion", [⟨"Motion",
      [⟨"extension", "E", some "Flexibility Extension", true, 0, [], 1⟩,
       ⟨"lateroflexion", "LF", some "Flexibility Lateroflexion", true, 0, [], 1⟩,
       ⟨"rotation", "R", some "Flexibility Level", true, 0, [], 1⟩]⟩]⟩,
   ⟨"Flexibility Extension", [⟨"Movement",
      [⟨"peek-a-boo", "PB", some "Flexibility Level", true, 0, [], 1⟩,
       ⟨"back bending", "BB", some "Flexibility Level", true, 0, [], 1⟩]⟩]⟩,
   ⟨"Flexibility Lateroflexion", [⟨"Position",
      [⟨"seated", "S", some "Flexibility Level", true, 0, [], 1⟩,
       ⟨"upright", "U", some "Flexibility Level", true, 0, [], 1⟩]⟩]⟩,
   ⟨"Flexibility Level", [⟨"Level",
      [⟨"level 1", "1", none, true, 0, [], 1⟩,
       ⟨"level 2", "2", none, false, 0, [], 3⟩,
       ⟨"level 3", "3", none, false, 0, [], 4⟩]⟩]⟩,
   ⟨"Quality Movement Level", [⟨"Level",
      [⟨"movement level 1", "B", none, false, 0, [], 2⟩,
       ⟨"movement level 2", "", some "Quality Movement 2", false, 0, [], 3⟩,
       ⟨"movement level 3", "FUR", some "Quality Movement 3", false, 0, [], 5⟩]⟩]⟩,
   ⟨"Quality Movement 2",
      [⟨"Movement",
        [⟨"seated balance rotations", "R", none, false, 0, [], 3⟩,
         ⟨"seated balance foot up", "FU", none, false, 0, [], 3⟩,
         ⟨"seated balance lateral movements", "LM", none, false, 0, [], 3⟩,
         ⟨"seated balance torso rotations", "TR", none, false, 0, [], 3⟩]⟩,
       ⟨"Level",
        [⟨"level 1", "1", none, false, 0, [], 3⟩,
         ⟨"level 2", "2", none, false, 0, [], 4⟩,
         ⟨"level 3", "3", none, false, 0, [], 5⟩]⟩]⟩,
   ⟨"Quality Movement 3", [⟨"Level",
      [⟨"level 1", "1", none, false, 0, [], 5⟩,
       ⟨"level 2", "2", none, false, 0, [], 6⟩,
       ⟨"level 3", "3", none, false, 0, [], 7⟩]⟩]⟩]

/-- The engine state (class `ZPDES`): the activity space plus the tunable
coefficients. -/
structure ZPDES where
  A_S : ActivitySpace
  gamma : ℚ
  d : ℕ
  lambdaZPD : ℚ
  lambdaA : ℚ
  beta : ℚ
  eta : ℚ
  softmax_factor : ℚ
  deriving Repr, DecidableEq

/-- A fresh engine (`ZPDES.__init__`): built-in activity space, supplied
coefficients (`softmax_factor` defaults to 10 in the source). -/
def initZPDES (gamma : ℚ) (d : ℕ) (lambdaZPD lambdaA beta eta : ℚ)
    (softmax_factor : ℚ) : ZPDES :=
  ⟨initAS, gamma, d, lambdaZPD, lambdaA, beta, eta, softmax_factor⟩

/-- The `softmax` helper of the source, with `np.exp` abstracted as `eexp`. -/
def softmax (eexp : ℚ → ℚ) (x : List ℚ) : List ℚ :=
  x.map fun a => eexp a / (x.map eexp).sum

/-- The uniform vector `xi_u` of `sampleValues`: `np.ones(n)` divided by its
sum, i.e. `n` entries of `1/n`. -/
def uniformVec (n : ℕ) : List ℚ := List.replicate n (1 / (n : ℚ))

/-- The mixture distribution `p_i` of `sampleValues` over one parameter's
active-arm weights `w`: `softmax(softmax_factor·w)·(1−γ) + γ·uniform`. -/
def probVec (eexp : ℚ → ℚ) (gamma softmax_factor : ℚ) (w : List ℚ) : List ℚ :=
  List.zipWith (fun a b => a * (1 - gamma) + gamma * b)
    (softmax eexp (w.map fun a => softmax_factor * a))
    (uniformVec w.length)

/-- Model of `np.random.choice(cands, p=p)`: raises on an empty candidate
list; otherwise the draw is resolved by the oracle value `r` (reduced modulo
the number of candidates). `p` is the distribution parameter of the call;
the facts about it are proved about `probVec`. -/
def npChoice (r : ℕ) (cands : List Value) (p : List ℚ) : Except String Value :=
  match cands with
  | [] => .error "a must be non-empty"
  | c :: cs => .ok ((c :: cs).getD (r % (cs.length + 1)) c)

/-- `ZPDES.sampleValues`, state-passing: one draw per parameter of `Hx`,
using the weight snapshot `Wx`; `k` indexes the oracle. The source reads
`Wx[i]` and `Hx[i].values[j]` by index, so a too-short `Wx` or a too-short
value list raises an IndexError. The engine state is threaded through and
returned (the source only reads it). -/
def sampleValuesS (z : ZPDES) (eexp : ℚ → ℚ) (o : ℕ → ℕ) (k : ℕ) :
    List Param → List (List ℚ) → Except String (List Value) × ZPDES
  | [], _ => (.ok [], z)
  | _ :: _, [] => (.error "list index out of range", z)
  | p :: Hx, w :: Wx =>
    if p.values.length < w.length then (.error "list index out of range", z)
    else
      let cw := (p.values.zip w).filter fun vw => vw.1.active
      match npChoice (o k) (cw.map fun vw => vw.1)
          (probVec eexp z.gamma z.softmax_factor (cw.map fun vw => vw.2)) with
      | .error m => (.error m, z)
      | .ok u =>
        match sampleValuesS z eexp o (k + 1) Hx Wx with
        | (.error m, z1) => (.error m, z1)
        | (.ok rest, z1) => (.ok (u :: rest), z1)

/-- The `while next_group != None` loop of `ZPDES.genActivity`,
state-passing and fuel-bounded: look up the next group by label (a missing
key raises), sample its parameters against its weight snapshot, read the
last drawn arm's successor and continue. Fuel exhaustion stands for
non-termination of the source loop. -/
def genLoopS (z : ZPDES) (eexp : ℚ → ℚ) (o : ℕ → ℕ) :
    ℕ → Option String → ℕ → Except String (List (List Value)) × ZPDES
  | _, none, _ => (.ok [], z)
  | _, some _, 0 => (.error "loop does not terminate", z)
  | k, some lbl, fuel + 1 =>
    match z.A_S.groups.find? (fun g => g.label = lbl) with
    | none => (.error "KeyError", z)
    | some g =>
      match sampleValuesS z eexp o k g.params g.weight with
      | (.error m, z1) => (.error m, z1)
      | (.ok h, z1) =>
        match h.getLast? with
        | none => (.error "list index out of range", z1)
        | some u =>
          match genLoopS z1 eexp o (k + g.params.length) u.next fuel with
          | (.error m, z2) => (.error m, z2)
          | (.ok rest, z2) => (.ok (h :: rest), z2)

/-- `ZPDES.genActivity`, state-passing and fuel-bounded: sample the first
registered group, then follow the last drawn arm's successor links; returns
the per-group draws and the concatenation of the drawn arms' codes. -/
def genActivityS (z : ZPDES) (eexp : ℚ → ℚ) (o : ℕ → ℕ) (fuel : ℕ) :
    Except String (List (List Value) × String) × ZPDES :=
  match z.A_S.groups with
  | [] => (.error "list index out of range", z)
  | g0 :: _ =>
    match sampleValuesS z eexp o 0 g0.params g0.weight with
    | (.error m, z1) => (.error m, z1)
    | (.ok h1, z1) =>
      match h1.getLast? with
      | none => (.error "list index out of range", z1)
      | some u =>
        match genLoopS z1 eexp o h1.length u.next fuel with
        | (.error m, z2) => (.error m, z2)
        | (.ok rest, z2) =>
          (.ok (h1 :: rest, String.join (((h1 :: rest).flatten).map Value.code)), z2)

/-- Positions of arms in the activity space: group index, parameter index,
value index. An activity is passed to `computeReward`/`update` as the
positions of its drawn arms, standing for the Python object references. -/
def getVal (as : ActivitySpace) (l : ℕ × ℕ × ℕ) : Option Value :=
  match as.groups[l.1]? with
  | none => none
  | some g =>
    match g.params[l.2.1]? with
    | none => none
    | some p => p.values[l.2.2]?

/-- In-place modification of the arm at index `i` of one parameter. -/
def valModAt (i : ℕ) (f : Value → Value) (p : Param) : Param :=
  { p with values := listModify f i p.values }

/-- In-place modification of the arm at position `(j, i)` of one group. -/
def paramModAt (j i : ℕ) (f : Value → Value) (g : Group) : Group :=
  { g with params := listModify (valModAt i f) j g.params }

/-- Modify the arm at one position in place. -/
def modVal (as : ActivitySpace) (l : ℕ × ℕ × ℕ) (f : Value → Value) :
    ActivitySpace :=
  { as with groups := listModify (paramModAt l.2.1 l.2.2 f) l.1 as.groups }

/-- The per-arm reward of `ZPDES.computeReward`, computed from the arm's
score history after the new score has been appended: with
`n = min(len(scores), d)`, zero when `n ≤ 1`, else the mean of the last
`ceil(n/2)` scores minus the mean of the preceding `floor(n/2)` scores. -/
def rewardOf (d : ℕ) (scores : List ℚ) : ℚ :=
  let n := min scores.length d
  if 1 < n then
    let c := (n + 1) / 2
    (lastN c scores).sum / (c : ℚ) -
      ((lastN n scores).take (n - c)).sum / ((n - c : ℕ) : ℚ)
  else 0

/-- One iteration of the `computeReward` loops: append the score to the
drawn arm's history, then compute its reward from the updated history. -/
def crStep (d : ℕ) (C : ℚ) (acc : ActivitySpace × List ℚ) (l : ℕ × ℕ × ℕ) :
    ActivitySpace × List ℚ :=
  match getVal acc.1 l with
  | none => (acc.1, acc.2 ++ [0])
  | some v =>
    (modVal acc.1 l fun u => { u with scores := u.scores ++ [C] },
      acc.2 ++ [rewardOf d (v.scores ++ [C])])

/-- `ZPDES.computeReward`: walk the drawn arms in flattened draw order,
appending the score `C` to each history and collecting one reward per arm. -/
def computeReward (z : ZPDES) (e : List (List (ℕ × ℕ × ℕ))) (C : ℚ) :
    ZPDES × List ℚ :=
  let ac := e.flatten.foldl (crStep z.d C) (z.A_S, [])
  ({ z with A_S := ac.1 }, ac.2)

/-- The advancement flag of `ZPDES.updateZPD`: `expand` stays true iff no
active arm anywhere in the graph has success rate below `lambdaZPD`. -/
def expandCheck (z : ZPDES) : Bool :=
  z.A_S.groups.all fun g =>
    g.params.all fun p =>
      p.values.all fun v => !(v.active && decide (v.success_rate < z.lambdaZPD))

/-- One step of the activation scan over one parameter's value list: the arm
at index `i` is activated in place when its activation stage equals the new
stage `t`. `Value.activate` reads the current (partially updated) list, as
the in-place Python loop does, and it reads that list *after* its own
`self.active = True` assignment — so the minimum is taken over the list with
the arm's own flag already flipped, its old weight included. -/
def activateStep (t : ℕ) (vs : List Value) (i : ℕ) : List Value :=
  match vs[i]? with
  | none => vs
  | some v =>
    if t = v.activation then
      listModify
        (fun u => u.activate (listModify (fun w => { w with active := true }) i vs))
        i vs
    else vs

/-- The activation scan over one parameter, visiting the value list in
order. -/
def activatePass (t : ℕ) (vs : List Value) : List Value :=
  (List.range vs.length).foldl (activateStep t) vs

/-- The activation scan applied to one parameter. -/
def paramPass (t : ℕ) (p : Param) : Param :=
  { p with values := activatePass t p.values }

/-- The activation scan applied to every parameter of one group. -/
def groupPass (t : ℕ) (g : Group) : Group :=
  { g with params := g.params.map (paramPass t) }

/-- The advancement phase of `ZPDES.updateZPD`: when `expand` holds,
increment the stage and run the activation scan over every parameter. -/
def stagePhase (z : ZPDES) : ZPDES :=
  if expandCheck z then
    let t := z.A_S.zpd_timestamp + 1
    { z with A_S := { zpd_timestamp := t, groups := z.A_S.groups.map (groupPass t) } }
  else z

/-- A retirement rule: the dict path of the target arm and the minimum stage
of the rule (the success-rate threshold is always `lambdaA`). -/
structure DeactRule where
  group : String
  param : String
  value : String
  minStage : ℕ
  deriving Repr, DecidableEq

/-- The seven hard-coded retirement rules of `ZPDES.updateZPD`, in source
order. -/
def deactRules : List DeactRule :=
  [⟨"Flexibility Level", "Level", "level 1", 3⟩,
   ⟨"Flexibility Level", "Level", "level 2", 4⟩,
   ⟨"Quality Movement Level", "Level", "movement level 1", 3⟩,
   ⟨"Quality Movement 2", "Level", "level 1", 4⟩,
   ⟨"Quality Movement 2", "Level", "level 2", 5⟩,
   ⟨"Quality Movement 3", "Level", "level 1", 6⟩,
   ⟨"Quality Movement 3", "Level", "level 2", 7⟩]

/-- Dict lookup `values_dict[v]` inside one parameter. -/
def findVal (p : Param) (vl : String) : Option Value :=
  p.values.find? fun v => v.label = vl

/-- Dict-path lookup `params_dict[p].values_dict[v]` inside one group. -/
def findParamVal (g : Group) (pl vl : String) : Option Value :=
  match g.params.find? (fun p => p.label = pl) with
  | none => none
  | some p => findVal p vl

/-- Dict-path lookup `groups_dict[g].params_dict[p].values_dict[v]`; labels
are pairwise distinct per container in the built-in configuration, so
first-match lookup models the dicts. -/
def getByLabel (as : ActivitySpace) (gl pl vl : String) : Option Value :=
  match as.groups.find? (fun g => g.label = gl) with
  | none => none
  | some g => findParamVal g pl vl

/-- Mutation of the arm with label `vl` inside one parameter. -/
def valModF (vl : String) (f : Value → Value) (p : Param) : Param :=
  { p with values := modifyFirst (fun v => v.label = vl) f p.values }

/-- Mutation of the parameter with label `pl` inside one group. -/
def paramModF (pl vl : String) (f : Value → Value) (g : Group) : Group :=
  { g with params := modifyFirst (fun p => p.label = pl) (valModF vl f) g.params }

/-- In-place mutation through a dict path. -/
def modifyByLabel (as : ActivitySpace) (gl pl vl : String) (f : Value → Value) :
    ActivitySpace :=
  { as with groups := modifyFirst (fun g => g.label = gl) (paramModF pl vl f) as.groups }

/-- One retirement rule of `ZPDES.updateZPD`: when the target arm's success
rate exceeds `lambdaA` and the stage has reached the rule's minimum, clear
the arm's active flag. The built-in configuration always contains the
target (in its absence the source would raise a KeyError). -/
def applyRule (lamA : ℚ) (as : ActivitySpace) (r : DeactRule) : ActivitySpace :=
  match getByLabel as r.group r.param r.value with
  | none => as
  | some v =>
    if lamA < v.success_rate ∧ r.minStage ≤ as.zpd_timestamp then
      modifyByLabel as r.group r.param r.value fun u => { u with active := false }
    else as

/-- The retirement phase of `ZPDES.updateZPD`: the seven rules in source
order, run on every update cycle. -/
def deactPhase (z : ZPDES) : ZPDES :=
  { z with A_S := deactRules.foldl (applyRule z.lambdaA) z.A_S }

/-- `ZPDES.updateZPD`: the advancement phase followed by the retirement
phase. -/
def updateZPD (z : ZPDES) : ZPDES := deactPhase (stagePhase z)

/-- One step of the weight-update loop of `ZPDES.update` on a drawn arm and
its reward: `weight ← β·weight + η·reward`. -/
def wStep (beta eta : ℚ) (as : ActivitySpace) (lr : (ℕ × ℕ × ℕ) × ℚ) :
    ActivitySpace :=
  modVal as lr.1 fun u => { u with weight := beta * u.weight + eta * lr.2 }

/-- `ZPDES.update`: compute the rewards (appending the score to the drawn
arms' histories), update each drawn arm's weight against its reward in
flattened draw order, then run `updateZPD`. -/
def update (z : ZPDES) (e : List (List (ℕ × ℕ × ℕ))) (C : ℚ) : ZPDES :=
  let zr := computeReward z e C
  let as2 := (e.flatten.zip zr.2).foldl (wStep z.beta z.eta) zr.1.A_S
  updateZPD { zr.1 with A_S := as2 }

/-- A finite sequence of update cycles (the `generate`/`update` protocol:
`genActivityS` never changes the state, so the state evolution of any
generate/update interleaving is a fold of `update` calls). -/
def applyOps (ops : List (List (List (ℕ × ℕ × ℕ)) × ℚ)) (z : ZPDES) : ZPDES :=
  ops.foldl (fun z1 op => update z1 op.1 op.2) z

/-- Placeholder arm used only to state `Option.getD` forms; never reached
under the validity hypotheses. -/
def blankV : Value := ⟨"", "", none, true, 0, [], 0⟩

/-- Relation between an arm before and after the activation scan at new
stage `t`: the static fields survive, arms that were already active or whose
activation stage is not `t` are untouched, and activeness is never lost. -/
def passRel (t : ℕ) (v v' : Value) : Prop :=
  v'.label = v.label ∧ v'.code = v.code ∧ v'.next = v.next ∧
  v'.activation = v.activation ∧ v'.scores = v.scores ∧
  (v.active = true → v' = v) ∧ (v.activation ≠ t → v' = v) ∧
  (v.active = true → v'.active = true)

/-- Relation between an arm before and after one update cycle whose (only
possible) advancement activates arms of stage `t`: label and activation
stage survive, and an arm that was inactive with activation stage other
than `t` stays inactive. -/
def dynRel (t : ℕ) (y x : Value) : Prop :=
  x.label = y.label ∧ x.activation = y.activation ∧
    (y.active = false → y.activation ≠ t → x.active = false)

/-- A retirement rule has fired and can never be undone: the stage has
reached the rule's minimum, and the target arm (when its dict path
resolves) is inactive with an activation stage strictly below the rule's
minimum, so no later stage advancement can ever re-activate it. -/
def ruleInv (z : ZPDES) (r : DeactRule) : Prop :=
  r.minStage ≤ z.A_S.zpd_timestamp ∧
  ∀ val, getByLabel z.A_S r.group r.param r.value = some val →
    val.active = false ∧ val.activation < r.minStage

/-- Two rules target different dict paths. -/
def pathNe (a b : DeactRule) : Prop :=
  ¬(a.group = b.group ∧ a.param = b.param ∧ a.value = b.value)

instance : DecidableRel pathNe := fun a b =>
  decidable_of_iff
    (¬(a.group = b.group ∧ a.param = b.param ∧ a.value = b.value)) Iff.rfl

/-- The first rule of the built-in table, used as a concrete instance. -/
def rWC5 : DeactRule := ⟨"Flexibility Level", "Level", "level 1", 3⟩

/-- The built-in level-1 flexibility arm in its initial state. -/
def vC5 : Value := ⟨"level 1", "1", none, true, 0, [], 1⟩

/-- A concrete engine at stage 6 over the built-in graph. -/
def z0C5 : ZPDES := ⟨⟨6, initASList⟩, 0, 1, 1, 0, 0, 0, 0⟩

/-- A concrete engine at stage 6 whose level-1 flexibility arm has been
retired. -/
def zWC5 : ZPDES :=
  ⟨modifyByLabel ⟨6, initASList⟩ "Flexibility Level" "Level" "level 1"
    (fun u => { u with active := false }), 0, 1, 1, 0, 0, 0, 0⟩

/-- The routing skeleton of an arm: its label and successor link. -/
def vSkel (v : Value) : String × Option String := (v.label, v.next)

/-- The routing skeleton of a parameter. -/
def pSkel (p : Param) : String × List (String × Option String) :=
  (p.label, p.values.map vSkel)

/-- The routing skeleton of a group. -/
def gSkel (g : Group) : String × List (String × List (String × Option String)) :=
  (g.label, g.params.map pSkel)

/-- The routing skeleton of the activity space: everything the group
traversal of `genActivity` depends on for termination. No update cycle ever
changes it. -/
def skel (as : ActivitySpace) :
    List (String × List (String × List (String × Option String))) :=
  as.groups.map gSkel

/-- The label of the first registered group, where `genActivity` starts. -/
def rootLabel (as : ActivitySpace) : Option String :=
  as.groups.head?.map Group.label

/-- The rank check on a routing skeleton: every successor link strictly
decreases `rank` against the group it leaves. -/
def skelDec (rank : String → ℕ)
    (s : List (String × List (String × List (String × Option String)))) : Bool :=
  s.all fun gs => gs.2.all fun ps => ps.2.all fun vs =>
    match vs.2 with
    | none => true
    | some nl => decide (rank nl < rank gs.1)

/-- The rank check on an activity space: a witness that the routing graph is
a DAG, so the traversal loop of `genActivity` terminates. -/
def nextDecB (as : ActivitySpace) (rank : String → ℕ) : Bool :=
  skelDec rank (skel as)

/-- Loop measure: 0 once the traversal has stopped, else one more than the
rank of the pending group label. -/
def rankMeasure (rank : String → ℕ) : Option String → ℕ
  | none => 0
  | some lbl => rank lbl + 1

/-- A rank witness for the built-in routing graph. -/
def refRank (lbl : String) : ℕ :=
  if lbl = "Type" then 4
  else if lbl = "Flexibility Motion" then 3
  else if lbl = "Quality Movement Level" then 3
  else if lbl = "Flexibility Extension" then 2
  else if lbl = "Flexibility Lateroflexion" then 2
  else 1

/-- Shape of a traversal result, from a pending label: each sampled block
has one drawn arm per parameter of the group found by the pending label, and
the last arm of each block routes to the next block; the chain ends exactly
when an arm with no successor is drawn. -/
def chainOk (as : ActivitySpace) : Option String → List (List Value) → Prop
  | none, hs => hs = []
  | some _, [] => False
  | some lbl, h :: rest =>
    ∃ g u, as.groups.find? (fun g1 => g1.label = lbl) = some g ∧
      h.length = g.params.length ∧ h.getLast? = some u ∧ chainOk as u.next rest

/-- A concrete oracle-independent exponential stand-in. -/
def eexpC7 : ℚ → ℚ := fun _ => 1

/-- A concrete oracle always drawing the first candidate. -/
def oC7 : ℕ → ℕ := fun _ => 0

/-- A concrete engine over the built-in graph. -/
def zC7 : ZPDES := ⟨⟨1, initASList⟩, 0, 1, 0, 0, 0, 0, 0⟩

/-- The activity drawn by `oC7` on `zC7`: flexibility, extension,
peek-a-boo, level 1. -/
def eC7 : List (List Value) :=
  [[⟨"flexibility", "F", some "Flexibility Motion", true, 0, [], 1⟩],
   [⟨"extension", "E", some "Flexibility Extension", true, 0, [], 1⟩],
   [⟨"peek-a-boo", "PB", some "Flexibility Level", true, 0, [], 1⟩],
   [⟨"level 1", "1", none, true, 0, [], 1⟩]]

/-- The code string of `eC7`. -/
def sC7 : String := "FEPB1"

/-! ## Lemmas about list surgery -/

theorem length_listModify (f : α → α) (n : ℕ) (l : List α) :
    (listModify f n l).length = l.length := by
  induction l generalizing n with
  | nil => cases n <;> rfl
  | cons a as ih => cases n <;> simp [listModify, ih]

theorem getElem?_listModify_self (f : α → α) (n : ℕ) (l : List α) :
    (listModify f n l)[n]? = (l[n]?).map f := by
  induction l generalizing n with
  | nil => cases n <;> rfl
  | cons a as ih => cases n <;> simp [listModify, ih]

theorem getElem?_listModify_ne (f : α → α) {m n : ℕ} (l : List α) (h : m ≠ n) :
    (listModify f n l)[m]? = l[m]? := by
  induction l generalizing m n with
  | nil => cases n <;> rfl
  | cons a as ih =>
    cases n with
    | zero => cases m with
      | zero => exact absurd rfl h
      | succ m => simp [listModify]
    | succ n => cases m with
      | zero => simp [listModify]
      | succ m => simpa [listModify] using ih (fun hc => h (by omega))

theorem find?_modifyFirst_self {p : α → Bool} {f : α → α} (l : List α)
    (hp : ∀ a, p (f a) = p a) :
    (modifyFirst p f l).find? p = (l.find? p).map f := by
  induction l with
  | nil => rfl
  | cons a as ih =>
    by_cases h : p a = true
    · simp [modifyFirst, h, List.find?, hp]
    · simp only [Bool.not_eq_true] at h
      simp [modifyFirst, h, List.find?, ih]

theorem find?_modifyFirst_other {p q : α → Bool} {f : α → α} (l : List α)
    (hq : ∀ a, q (f a) = q a) (hpq : ∀ a, p a = true → q a = false) :
    (modifyFirst p f l).find? q = l.find? q := by
  induction l with
  | nil => rfl
  | cons a as ih =>
    by_cases h : p a = true
    · simp [modifyFirst, h, List.find?, hq, hpq a h]
    · simp only [Bool.not_eq_true] at h
      by_cases h2 : q a = true
      · simp [modifyFirst, h, List.find?, h2]
      · simp only [Bool.not_eq_true] at h2
        simp [modifyFirst, h, List.find?, h2, ih]

theorem getElem?_modifyFirst (p : α → Bool) (f : α → α) (l : List α) (i : ℕ) :
    (modifyFirst p f l)[i]? = l[i]? ∨
      ∃ a, l[i]? = some a ∧ (modifyFirst p f l)[i]? = some (f a) := by
  induction l generalizing i with
  | nil => left; rfl
  | cons a as ih =>
    by_cases h : p a = true
    · cases i with
      | zero => right; exact ⟨a, by simp, by simp [modifyFirst, h]⟩
      | succ i => left; simp [modifyFirst, h]
    · simp only [Bool.not_eq_true] at h
      cases i with
      | zero => left; simp [modifyFirst, h]
      | succ i =>
        rcases ih i with h2 | ⟨b, hb, hb2⟩
        · left; simpa [modifyFirst, h] using h2
        · right; exact ⟨b, by simpa using hb, by simpa [modifyFirst, h] using hb2⟩

theorem length_modifyFirst (p : α → Bool) (f : α → α) (l : List α) :
    (modifyFirst p f l).length = l.length := by
  induction l with
  | nil => rfl
  | cons a as ih => by_cases h : p a = true <;> simp [modifyFirst, h, ih]

theorem map_listModify_comm {β : Type} (f : α → β) (g : α → α) (h : β → β)
    (l : List α) (i : ℕ) (hc : ∀ a, l[i]? = some a → f (g a) = h (f a)) :
    (listModify g i l).map f = listModify h i (l.map f) := by
  induction l generalizing i with
  | nil => cases i <;> rfl
  | cons a as ih =>
    cases i with
    | zero =>
      simp only [listModify, List.map_cons]
      rw [hc a (by simp)]
    | succ n =>
      simp only [listModify, List.map_cons]
      rw [ih n (fun b hb => hc b (by simpa using hb))]

/-! ## Lemmas about sampling -/

theorem npChoice_ok_mem {r : ℕ} {cands : List Value} {p : List ℚ} {u : Value}
    (h : npChoice r cands p = .ok u) : u ∈ cands := by
  match cands with
  | [] => simp [npChoice] at h
  | c :: cs =>
    simp only [npChoice, Except.ok.injEq] at h
    rw [List.getD_eq_getElem?_getD] at h
    rcases h2 : (c :: cs)[r % (cs.length + 1)]? with _ | x
    · rw [h2] at h; simp at h; subst h; exact List.mem_cons_self ..
    · rw [h2] at h; simp at h; subst h; exact List.getElem?_mem h2

theorem npChoice_nil (r : ℕ) (p : List ℚ) :
    npChoice r [] p = .error "a must be non-empty" := rfl

theorem npChoice_isOk (r : ℕ) (cands : List Value) (p : List ℚ)
    (h : cands ≠ []) : ∃ u, npChoice r cands p = .ok u ∧ u ∈ cands := by
  match cands with
  | [] => exact absurd rfl h
  | c :: cs =>
    have hok : npChoice r (c :: cs) p = .ok ((c :: cs).getD (r % (cs.length + 1)) c) := rfl
    exact ⟨_, hok, npChoice_ok_mem hok⟩

/-- Characterization of a successful `sampleValues` call on an aligned
weight snapshot: one drawn arm per parameter, each drawn from its own
parameter's active arms. -/
theorem sampleValuesS_ok_spec (z : ZPDES) (eexp : ℚ → ℚ) (o : ℕ → ℕ) :
    ∀ (Hx : List Param) (k : ℕ) (l : List Value),
      (sampleValuesS z eexp o k Hx (Hx.map Param.weight)).1 = .ok l →
      l.length = Hx.length ∧
        ∀ (j : ℕ) (p : Param), Hx[j]? = some p →
          ∃ v, l[j]? = some v ∧ v ∈ p.values ∧ v.active = true := by
  intro Hx
  induction Hx with
  | nil =>
    intro k l h
    simp only [List.map_nil, sampleValuesS, Except.ok.injEq] at h
    subst h; exact ⟨rfl, by intro j p hp; simp at hp⟩
  | cons p Hx ih =>
    intro k l h
    simp only [List.map_cons, sampleValuesS] at h
    rw [if_neg (by simp [Param.weight])] at h
    rcases hc : npChoice (o k) (((p.values.zip p.weight).filter fun vw => vw.1.active).map
        fun vw => vw.1)
        (probVec eexp z.gamma z.softmax_factor
          (((p.values.zip p.weight).filter fun vw => vw.1.active).map fun vw => vw.2)) with
      m | u
    · rw [hc] at h; simp at h
    · rw [hc] at h
      rcases hr : sampleValuesS z eexp o (k + 1) Hx (Hx.map Param.weight) with ⟨er | rest, z1⟩
      · rw [hr] at h; simp at h
      · rw [hr] at h
        simp only [Except.ok.injEq] at h
        subst h
        have hu : u ∈ p.values ∧ u.active = true := by
          have hmem := npChoice_ok_mem hc
          simp only [List.mem_map] at hmem
          obtain ⟨vw, hvw, hvw2⟩ := hmem
          rw [List.mem_filter] at hvw
          subst hvw2
          exact ⟨(List.of_mem_zip hvw.1).1, hvw.2⟩
        have ihx := ih (k + 1) rest (by rw [hr])
        refine ⟨by simpa using ihx.1, ?_⟩
        intro j q hq
        cases j with
        | zero =>
          simp only [List.getElem?_cons_zero, Option.some.injEq] at hq
          subst hq
          exact ⟨u, by simp, hu.1, hu.2⟩
        | succ j => simpa using ihx.2 j q (by simpa using hq)

/-- A parameter whose arms all have at least one active arm always samples
successfully (on an aligned weight snapshot). -/
theorem sampleValuesS_isOk (z : ZPDES) (eexp : ℚ → ℚ) (o : ℕ → ℕ) :
    ∀ (Hx : List Param) (k : ℕ),
      (∀ p ∈ Hx, ∃ v ∈ p.values, v.active = true) →
      ∃ l, (sampleValuesS z eexp o k Hx (Hx.map Param.weight)).1 = .ok l := by
  intro Hx
  induction Hx with
  | nil => intro k _; exact ⟨[], rfl⟩
  | cons p Hx ih =>
    intro k hact
    simp only [List.map_cons, sampleValuesS]
    rw [if_neg (by simp [Param.weight])]
    have hzip : p.values.zip p.weight = p.values.map fun v => (v, v.weight) :=
      (List.map_prod_left_eq_zip Value.weight).symm
    have hcand : ((p.values.zip p.weight).filter fun vw => vw.1.active).map
        (fun vw => vw.1) ≠ [] := by
      obtain ⟨v, hv, hva⟩ := hact p (List.mem_cons_self ..)
      have hz : (v, v.weight) ∈ p.values.zip p.weight := by
        rw [hzip]; exact List.mem_map_of_mem _ hv
      exact List.ne_nil_of_mem
        (List.mem_map_of_mem _ (List.mem_filter.mpr ⟨hz, by simpa using hva⟩))
    obtain ⟨u, hc, _⟩ := npChoice_isOk (o k) _
      (probVec eexp z.gamma z.softmax_factor
        (((p.values.zip p.weight).filter fun vw => vw.1.active).map fun vw => vw.2))
      hcand
    rw [hc]
    obtain ⟨rest, hr⟩ := ih (k + 1) fun q hq => hact q (List.mem_cons_of_mem _ hq)
    rcases hrr : sampleValuesS z eexp o (k + 1) Hx (Hx.map Param.weight) with ⟨er | rest2, z1⟩
    · rw [hrr] at hr; simp at hr
    · rw [hrr] at hr
      exact ⟨u :: rest2, by simp⟩

/-- A parameter with no active arm makes `sampleValues` fail (numpy's
`choice` raises on the empty candidate list). -/
theorem sampleValuesS_allInactive_error (z : ZPDES) (eexp : ℚ → ℚ) (o : ℕ → ℕ) :
    ∀ (Hx : List Param) (k : ℕ) (p : Param), p ∈ Hx →
      (∀ v ∈ p.values, v.active = false) →
      ∃ m, (sampleValuesS z eexp o k Hx (Hx.map Param.weight)).1 = .error m := by
  intro Hx
  induction Hx with
  | nil => intro k p hp; simp at hp
  | cons q Hx ih =>
    intro k p hp hact
    simp only [List.map_cons, sampleValuesS]
    rw [if_neg (by simp [Param.weight])]
    rcases List.mem_cons.mp hp with hpq | hptl
    · subst hpq
      have hfil : (p.values.zip p.weight).filter (fun vw => vw.1.active) = [] := by
        rw [List.filter_eq_nil_iff]
        intro vw hvw
        simp [hact vw.1 (List.of_mem_zip hvw).1]
      rw [hfil]
      exact ⟨"a must be non-empty", by simp [npChoice]⟩
    · rcases hc : npChoice (o k) (((q.values.zip q.weight).filter fun vw => vw.1.active).map
          fun vw => vw.1)
          (probVec eexp z.gamma z.softmax_factor
            (((q.values.zip q.weight).filter fun vw => vw.1.active).map fun vw => vw.2)) with
        m | u
      · exact ⟨m, by rw [hc]⟩
      · rw [hc]
        obtain ⟨m, hm⟩ := ih (k + 1) p hptl hact
        rcases hrr : sampleValuesS z eexp o (k + 1) Hx (Hx.map Param.weight) with ⟨er | rest, z1⟩
        · rw [hrr] at hm; simp at hm; subst hm; exact ⟨er, by simp⟩
        · rw [hrr] at hm; simp at hm

/-- `sampleValues` never touches the engine state. -/
theorem sampleValuesS_state (z : ZPDES) (eexp : ℚ → ℚ) (o : ℕ → ℕ) :
    ∀ (Hx : List Param) (Wx : List (List ℚ)) (k : ℕ),
      (sampleValuesS z eexp o k Hx Wx).2 = z := by
  intro Hx
  induction Hx with
  | nil => intro Wx k; rfl
  | cons p Hx ih =>
    intro Wx k
    cases Wx with
    | nil => rfl
    | cons w Wx =>
      simp only [sampleValuesS]
      by_cases hlen : p.values.length < w.length
      · rw [if_pos hlen]
      · rw [if_neg hlen]
        rcases hc : npChoice (o k) (((p.values.zip w).filter fun vw => vw.1.active).map
            fun vw => vw.1)
            (probVec eexp z.gamma z.softmax_factor
              (((p.values.zip w).filter fun vw => vw.1.active).map fun vw => vw.2)) with
          m | u
        · simp only [hc]
        · rcases hrr : sampleValuesS z eexp o (k + 1) Hx Wx with ⟨er | rest, z1⟩ <;>
          · simp only [hc, hrr]
            have := ih Wx (k + 1)
            rw [hrr] at this
            simpa using this

/-- The traversal loop of `genActivity` never touches the engine state. -/
theorem genLoopS_state (eexp : ℚ → ℚ) (o : ℕ → ℕ) :
    ∀ (fuel : ℕ) (z : ZPDES) (k : ℕ) (nx : Option String),
      (genLoopS z eexp o k nx fuel).2 = z := by
  intro fuel
  induction fuel with
  | zero => intro z k nx; cases nx <;> rfl
  | succ fuel ih =>
    intro z k nx
    cases nx with
    | none => rfl
    | some lbl =>
      simp only [genLoopS]
      rcases hg : z.A_S.groups.find? (fun g => g.label = lbl) with _ | g
      · simp only [hg]
      · rcases hs : sampleValuesS z eexp o k g.params g.weight with ⟨er | h, z1⟩
        · simp only [hg, hs]
          have := sampleValuesS_state z eexp o g.params g.weight k
          rw [hs] at this; simpa using this
        · have hz1 : z1 = z := by
            have := sampleValuesS_state z eexp o g.params g.weight k
            rw [hs] at this; simpa using this
          rcases hl : h.getLast? with _ | u
          · simp only [hg, hs, hl]; exact hz1
          · rcases hrr : genLoopS z1 eexp o (k + g.params.length) u.next fuel with ⟨er | rest, z2⟩ <;>
            · simp only [hg, hs, hl, hrr]
              have := ih z1 (k + g.params.length) u.next
              rw [hrr] at this; simp at this; simp [this, hz1]

/-- `genActivity` never touches the engine state. -/
theorem genActivityS_state (z : ZPDES) (eexp : ℚ → ℚ) (o : ℕ → ℕ) (fuel : ℕ) :
    (genActivityS z eexp o fuel).2 = z := by
  simp only [genActivityS]
  rcases hgs : z.A_S.groups with _ | ⟨g0, gs⟩
  · rfl
  · rcases hs : sampleValuesS z eexp o 0 g0.params g0.weight with ⟨er | h1, z1⟩
    · simp only [hs]
      have := sampleValuesS_state z eexp o g0.params g0.weight 0
      rw [hs] at this; simpa using this
    · have hz1 : z1 = z := by
        have := sampleValuesS_state z eexp o g0.params g0.weight 0
        rw [hs] at this; simpa using this
      rcases hl : h1.getLast? with _ | u
      · simp only [hs, hl]; exact hz1
      · rcases hrr : genLoopS z1 eexp o h1.length u.next fuel with ⟨er | rest, z2⟩ <;>
        · simp only [hs, hl, hrr]
          have := genLoopS_state eexp o fuel z1 h1.length u.next
          rw [hrr] at this; simp at this; simp [this, hz1]

theorem zipWith_gamma_one (l r : List ℚ) (h : l.length = r.length) :
    List.zipWith (fun a b => a * (1 - (1 : ℚ)) + 1 * b) l r = r := by
  induction l generalizing r with
  | nil => cases r with
    | nil => rfl
    | cons b r => simp at h
  | cons a l ih =>
    cases r with
    | nil => simp at h
    | cons b r =>
      simp only [List.zipWith_cons_cons, List.cons.injEq]
      exact ⟨by ring, ih r (by simpa using h)⟩

theorem zipWith_gamma_zero (l r : List ℚ) (h : l.length = r.length) :
    List.zipWith (fun a b => a * (1 - (0 : ℚ)) + 0 * b) l r = l := by
  induction l generalizing r with
  | nil => rfl
  | cons a l ih =>
    cases r with
    | nil => simp at h
    | cons b r =>
      simp only [List.zipWith_cons_cons, List.cons.injEq]
      exact ⟨by ring, ih r (by simpa using h)⟩

/-! ## Claims about sampling and generation -/

/-- C3: on an aligned weight snapshot, a successful `sampleValues` call
draws exactly one arm per parameter, each chosen from that parameter's
active arms; the distribution vector handed to each draw is
`p = (1−γ)·softmax(softmaxFactor·W) + γ·uniform` over the active-arm
weights `W` (this is `probVec`, by definition of `sampleValuesS`), and with
`γ = 1` that vector is exactly uniform over the active arms regardless of
the weights, while with `γ = 0` it equals `softmax(softmaxFactor·W)`
exactly. -/
theorem C3_sampling_distribution (eexp : ℚ → ℚ) :
    (∀ (z : ZPDES) (o : ℕ → ℕ) (k : ℕ) (Hx : List Param) (l : List Value),
        (sampleValuesS z eexp o k Hx (Hx.map Param.weight)).1 = .ok l →
        l.length = Hx.length ∧
          ∀ (j : ℕ) (p : Param), Hx[j]? = some p →
            ∃ v, l[j]? = some v ∧ v ∈ p.values ∧ v.active = true) ∧
    (∀ (sf : ℚ) (W : List ℚ),
        probVec eexp 1 sf W = List.replicate W.length (1 / (W.length : ℚ))) ∧
    (∀ (sf : ℚ) (W : List ℚ),
        probVec eexp 0 sf W = softmax eexp (W.map fun a => sf * a)) := by
  refine ⟨fun z o k Hx l h => sampleValuesS_ok_spec z eexp o Hx k l h, ?_, ?_⟩
  · intro sf W
    unfold probVec
    rw [zipWith_gamma_one _ _ (by simp [softmax, uniformVec])]
    rfl
  · intro sf W
    exact zipWith_gamma_zero _ _ (by simp [softmax, uniformVec])

/-- Witness for C3 at a one-parameter list with a single active arm and the
constant-zero oracle. -/
theorem C3_sampling_distribution_witness :
    ([(⟨"a", "A", none, true, 0, [], 1⟩ : Value)] : List Value).length =
      ([(⟨"P", [⟨"a", "A", none, true, 0, [], 1⟩]⟩ : Param)] : List Param).length :=
  ((C3_sampling_distribution (fun _ => 1)).1 (initZPDES 0 1 0 0 0 0 0) (fun _ => 0) 0
    [⟨"P", [⟨"a", "A", none, true, 0, [], 1⟩]⟩] [⟨"a", "A", none, true, 0, [], 1⟩] rfl).1

/-- C9: a Parameter with zero active arms is a sampling failure, not a
silent draw: `sampleValues` returns an error on any parameter list
containing it, and `genActivity` propagates the error when the root group
contains such a parameter. -/
theorem C9_no_active_arm_fails :
    (∀ (z : ZPDES) (eexp : ℚ → ℚ) (o : ℕ → ℕ) (k : ℕ) (Hx : List Param) (p : Param),
        p ∈ Hx → (∀ v ∈ p.values, v.active = false) →
        ∃ m, (sampleValuesS z eexp o k Hx (Hx.map Param.weight)).1 = .error m) ∧
    (∀ (z : ZPDES) (eexp : ℚ → ℚ) (o : ℕ → ℕ) (fuel : ℕ) (g0 : Group) (p : Param),
        z.A_S.groups[0]? = some g0 → p ∈ g0.params →
        (∀ v ∈ p.values, v.active = false) →
        ∃ m, (genActivityS z eexp o fuel).1 = .error m) := by
  constructor
  · exact fun z eexp o k Hx p hp hact =>
      sampleValuesS_allInactive_error z eexp o Hx k p hp hact
  · intro z eexp o fuel g0 p hg0 hp hact
    obtain ⟨m, hm⟩ :=
      sampleValuesS_allInactive_error z eexp o g0.params 0 p hp hact
    rcases hgs : z.A_S.groups with _ | ⟨g0', gs⟩
    · exact ⟨"list index out of range", by simp [genActivityS, hgs]⟩
    · have hg0' : g0' = g0 := by rw [hgs] at hg0; simpa using hg0
      subst hg0'
      rcases hs : sampleValuesS z eexp o 0 g0'.params g0'.weight with ⟨er | h1, z1⟩
      · exact ⟨er, by simp [genActivityS, hgs, hs]⟩
      · have : Except.ok h1 = Except.error m := by
          have heq : g0'.weight = g0'.params.map Param.weight := rfl
          rw [← heq] at hm
          rw [hs] at hm; simpa using hm
        simp at this

/-- Witness for C9: a single parameter whose only arm is inactive. -/
theorem C9_no_active_arm_fails_witness :
    ∃ m, (sampleValuesS (initZPDES 0 1 0 0 0 0 0) (fun _ => 1) (fun _ => 0) 0
        [⟨"P", [⟨"a", "A", none, false, 0, [], 1⟩]⟩]
        ([(⟨"P", [⟨"a", "A", none, false, 0, [], 1⟩]⟩ : Param)].map Param.weight)).1 =
      .error m :=
  (C9_no_active_arm_fails).1 (initZPDES 0 1 0 0 0 0 0) (fun _ => 1) (fun _ => 0) 0
    [⟨"P", [⟨"a", "A", none, false, 0, [], 1⟩]⟩] ⟨"P", [⟨"a", "A", none, false, 0, [], 1⟩]⟩
    (List.mem_cons_self ..)
    (by intro v hv; simp only [List.mem_singleton] at hv; subst hv; rfl)

/-- C10: activity generation is read-only on the graph state: both
`sampleValues` and `genActivity` return the engine state they were given,
unchanged, on every input (success or failure); every arm's weight, score
history and active flag and the stage counter are therefore unchanged. -/
theorem C10_generation_read_only :
    (∀ (z : ZPDES) (eexp : ℚ → ℚ) (o : ℕ → ℕ) (k : ℕ) (Hx : List Param)
        (Wx : List (List ℚ)), (sampleValuesS z eexp o k Hx Wx).2 = z) ∧
    (∀ (z : ZPDES) (eexp : ℚ → ℚ) (o : ℕ → ℕ) (k : ℕ) (nx : Option String)
        (fuel : ℕ), (genLoopS z eexp o k nx fuel).2 = z) ∧
    (∀ (z : ZPDES) (eexp : ℚ → ℚ) (o : ℕ → ℕ) (fuel : ℕ),
        (genActivityS z eexp o fuel).2 = z) :=
  ⟨fun z eexp o k Hx Wx => sampleValuesS_state z eexp o Hx Wx k,
   fun z eexp o k nx fuel => genLoopS_state eexp o fuel z k nx,
   fun z eexp o fuel => genActivityS_state z eexp o fuel⟩

/-! ## Claims about the per-arm metrics -/

/-- Counterexample to C8 as stated: an inactive arm with a single recorded
score 1 has `success_rate` 0, not the mean (1) of its full history, even
though it has between 1 and 3 scores. -/
theorem C8_success_rate_cex :
    (Value.mk "x" "X" none false 0 [1] 1).scores.length ≠ 0 ∧
    (Value.mk "x" "X" none false 0 [1] 1).scores.length < 4 ∧
    Value.success_rate (Value.mk "x" "X" none false 0 [1] 1) ≠
      listMean (Value.mk "x" "X" none false 0 [1] 1).scores := by
  refine ⟨by simp, by simp, ?_⟩
  have h1 : Value.success_rate (Value.mk "x" "X" none false 0 [1] 1) = 0 := by
    simp [Value.success_rate]
  have h2 : listMean (Value.mk "x" "X" none false 0 [1] 1).scores = 1 := by
    simp [listMean]
  rw [h1, h2]
  norm_num

/-- C8 amended: the success rate of an arm is 0 when no scores are recorded
*or the arm is inactive*; for an active arm with at least one score it is
the mean of the full history when fewer than 4 scores are recorded and the
mean of the last 4 scores otherwise. -/
theorem C8_success_rate (v : Value) :
    (v.scores.length = 0 ∨ v.active = false → v.success_rate = 0) ∧
    (v.active = true → v.scores.length ≠ 0 → v.scores.length < 4 →
      v.success_rate = listMean v.scores) ∧
    (v.active = true → 4 ≤ v.scores.length →
      v.success_rate = listMean (lastN 4 v.scores)) := by
  refine ⟨fun h => ?_, fun ha hne hlt => ?_, fun ha hge => ?_⟩
  · rw [Value.success_rate, if_pos h]
  · rw [Value.success_rate, if_neg (by simp [ha, hne]), if_pos hlt]
  · rw [Value.success_rate, if_neg (not_or.mpr ⟨by omega, by simp [ha]⟩), if_neg (by omega)]

/-- Witness for C8 on an active arm with two scores. -/
theorem C8_success_rate_witness :
    Value.success_rate (Value.mk "a" "A" none true 0 [1, 2] 1) =
      listMean (Value.mk "a" "A" none true 0 [1, 2] 1).scores :=
  (C8_success_rate (Value.mk "a" "A" none true 0 [1, 2] 1)).2.1 rfl (by simp) (by simp)

/-- C2, counterexample to the frozen claim: in the claim's own scenario — a
parameter with active arms of weights 2 and 5 and one inactive arm (weight
0, as the constructor seeds it) activating at the current stage — the
program seeds the newly activated arm at 0, its own old weight, not at the
minimum 2 of the previously active weights: the source executes
`self.active = True` before taking the minimum, so the arm's own old weight
enters the minimum instead of being pushed out by the 1000 sentinel. -/
theorem C2_activation_seeding_cex :
    ∃ v' : Value, (activatePass 3
        ([⟨"a", "A", none, true, 2, [], 1⟩, ⟨"b", "B", none, true, 5, [], 1⟩,
          ⟨"new", "N", none, false, 0, [], 3⟩] : List Value))[2]? = some v' ∧
      v'.active = true ∧ v'.weight = 0 ∧
      ¬v'.weight = npMin1 (([⟨"a", "A", none, true, 2, [], 1⟩,
          ⟨"b", "B", none, true, 5, [], 1⟩,
          ⟨"new", "N", none, false, 0, [], 3⟩] : List Value).map fun u =>
        if u.active then u.weight else (1000 : ℚ)) := by
  refine ⟨⟨"new", "N", none, true, 0, [], 3⟩, by decide, rfl, rfl, by decide⟩

/-- C2 (amended): activating a previously inactive arm whose activation
stage equals the new stage marks it active and seeds its weight with the
minimum over its parameter's arms of (weight if active else 1000) — taken
over the list in which the arm's own active flag has already been set, since
the source flips `self.active` before computing the minimum: the sentinel at
the arm's own slot is replaced by the arm's own old weight, which therefore
participates in the minimum. -/
theorem C2_activation_seeding (t : ℕ) (vs : List Value) (i : ℕ) (v : Value)
    (hv : vs[i]? = some v) (hact : v.active = false) (ht : t = v.activation) :
    ∃ v' : Value, (activateStep t vs i)[i]? = some v' ∧ v'.active = true ∧
      v'.label = v.label ∧
      v'.weight = npMin1 (listModify (fun _ => v.weight) i
        (vs.map fun u => if u.active then u.weight else 1000)) := by
  simp only [activateStep, hv]
  rw [if_pos ht, getElem?_listModify_self, hv, Option.map_some']
  refine ⟨_, rfl, ?_, ?_, ?_⟩
  · rw [Value.activate, if_neg (by simp [hact])]
  · rw [Value.activate, if_neg (by simp [hact])]
  · rw [Value.activate, if_neg (by simp [hact])]
    show npMin1 ((listModify (fun w => { w with active := true }) i vs).map
      fun u => if u.active then u.weight else 1000) = _
    congr 1
    exact map_listModify_comm (fun u => if u.active then u.weight else 1000)
      (fun w => { w with active := true }) (fun _ => v.weight) vs i
      (fun a ha => by
        rw [hv] at ha
        rw [← Option.some.inj ha]
        rfl)

/-- Witness for C2 on the spec's scenario (active weights 2 and 5, inactive
arm of weight 0 activating at stage 3): the seeded weight is the minimum of
2, 5 and the arm's old weight 0 — its own slot holds 0, not the sentinel. -/
theorem C2_activation_seeding_witness :
    ∃ v' : Value, (activateStep 3
        ([⟨"a", "A", none, true, 2, [], 1⟩, ⟨"b", "B", none, true, 5, [], 1⟩,
          ⟨"new", "N", none, false, 0, [], 3⟩] : List Value) 2)[2]? = some v' ∧
      v'.active = true ∧ v'.label = "new" ∧
      v'.weight = npMin1 (listModify (fun _ => (0 : ℚ)) 2
        (([⟨"a", "A", none, true, 2, [], 1⟩, ⟨"b", "B", none, true, 5, [], 1⟩,
           ⟨"new", "N", none, false, 0, [], 3⟩] : List Value).map fun u =>
            if u.active then u.weight else 1000)) :=
  C2_activation_seeding 3
    ([⟨"a", "A", none, true, 2, [], 1⟩, ⟨"b", "B", none, true, 5, [], 1⟩,
      ⟨"new", "N", none, false, 0, [], 3⟩] : List Value) 2
    ⟨"new", "N", none, false, 0, [], 3⟩ (by decide) rfl rfl

/-! ## Position lemmas for the mutable state -/

theorem getVal_modVal_self (as : ActivitySpace) (l : ℕ × ℕ × ℕ) (f : Value → Value) :
    getVal (modVal as l f) l = (getVal as l).map f := by
  unfold getVal modVal
  simp only
  rw [getElem?_listModify_self]
  rcases hg : as.groups[l.1]? with _ | g
  · rfl
  · simp only [Option.map_some']
    rw [show (paramModAt l.2.1 l.2.2 f g).params =
        listModify (valModAt l.2.2 f) l.2.1 g.params from rfl]
    rw [getElem?_listModify_self]
    rcases hp : g.params[l.2.1]? with _ | p
    · rfl
    · simp only [Option.map_some']
      rw [show (valModAt l.2.2 f p).values = listModify f l.2.2 p.values from rfl]
      rw [getElem?_listModify_self]

theorem getVal_modVal_ne (as : ActivitySpace) (l l' : ℕ × ℕ × ℕ) (f : Value → Value)
    (h : l ≠ l') : getVal (modVal as l f) l' = getVal as l' := by
  unfold getVal modVal
  simp only
  by_cases h1 : l'.1 = l.1
  · rw [h1, getElem?_listModify_self]
    rcases hg : as.groups[l.1]? with _ | g
    · rfl
    · simp only [Option.map_some']
      rw [show (paramModAt l.2.1 l.2.2 f g).params =
          listModify (valModAt l.2.2 f) l.2.1 g.params from rfl]
      by_cases h2 : l'.2.1 = l.2.1
      · rw [h2, getElem?_listModify_self]
        rcases hp : g.params[l.2.1]? with _ | p
        · rfl
        · simp only [Option.map_some']
          rw [show (valModAt l.2.2 f p).values = listModify f l.2.2 p.values from rfl]
          have h3 : l'.2.2 ≠ l.2.2 := by
            intro h3
            exact h (Prod.ext h1 (Prod.ext h2 h3)).symm
          rw [getElem?_listModify_ne _ _ h3]
      · rw [getElem?_listModify_ne _ _ h2]
  · rw [getElem?_listModify_ne _ _ h1]

theorem modVal_timestamp (as : ActivitySpace) (l : ℕ × ℕ × ℕ) (f : Value → Value) :
    (modVal as l f).zpd_timestamp = as.zpd_timestamp := rfl

/-! ## Sum bounds for the trend reward -/

theorem listSum_le (l : List ℚ) (a : ℚ) (h : ∀ x ∈ l, x ≤ a) :
    l.sum ≤ (l.length : ℚ) * a := by
  induction l with
  | nil => simp
  | cons x xs ih =>
    have hx := h x (List.mem_cons_self ..)
    have hxs := ih fun y hy => h y (List.mem_cons_of_mem _ hy)
    simp only [List.sum_cons, List.length_cons]
    push_cast
    nlinarith

theorem le_listSum (l : List ℚ) (a : ℚ) (h : ∀ x ∈ l, a ≤ x) :
    (l.length : ℚ) * a ≤ l.sum := by
  induction l with
  | nil => simp
  | cons x xs ih =>
    have hx := h x (List.mem_cons_self ..)
    have hxs := ih fun y hy => h y (List.mem_cons_of_mem _ hy)
    simp only [List.sum_cons, List.length_cons]
    push_cast
    nlinarith

theorem listSum_lt (l : List ℚ) (a : ℚ) (hne : l ≠ []) (h : ∀ x ∈ l, x < a) :
    l.sum < (l.length : ℚ) * a := by
  match l with
  | x :: xs =>
    have hx := h x (List.mem_cons_self ..)
    have hxs := listSum_le xs a fun y hy => le_of_lt (h y (List.mem_cons_of_mem _ hy))
    simp only [List.sum_cons, List.length_cons]
    push_cast
    nlinarith

theorem lt_listSum (l : List ℚ) (a : ℚ) (hne : l ≠ []) (h : ∀ x ∈ l, a < x) :
    (l.length : ℚ) * a < l.sum := by
  match l with
  | x :: xs =>
    have hx := h x (List.mem_cons_self ..)
    have hxs := le_listSum xs a fun y hy => le_of_lt (h y (List.mem_cons_of_mem _ hy))
    simp only [List.sum_cons, List.length_cons]
    push_cast
    nlinarith

theorem listSum_eq (l : List ℚ) (a : ℚ) (h : ∀ x ∈ l, x = a) :
    l.sum = (l.length : ℚ) * a := by
  induction l with
  | nil => simp
  | cons x xs ih =>
    have hx := h x (List.mem_cons_self ..)
    have hxs := ih fun y hy => h y (List.mem_cons_of_mem _ hy)
    simp only [List.sum_cons, List.length_cons]
    push_cast
    rw [hx, hxs]
    ring

/-- Characterization of the `computeReward` fold: on pairwise-distinct valid
positions it appends the score to each drawn arm's history and emits, in
draw order, the reward computed from each arm's updated history; all other
positions and the stage counter are untouched. -/
theorem crFold_spec (d : ℕ) (C : ℚ) :
    ∀ (locs : List (ℕ × ℕ × ℕ)) (as : ActivitySpace) (r0 : List ℚ),
      locs.Nodup → (∀ l ∈ locs, (getVal as l).isSome) →
      (locs.foldl (crStep d C) (as, r0)).2 =
        r0 ++ locs.map (fun l => rewardOf d (((getVal as l).getD blankV).scores ++ [C])) ∧
      (∀ l v, l ∈ locs → getVal as l = some v →
        getVal (locs.foldl (crStep d C) (as, r0)).1 l =
          some { v with scores := v.scores ++ [C] }) ∧
      (∀ l, l ∉ locs → getVal (locs.foldl (crStep d C) (as, r0)).1 l = getVal as l) ∧
      (locs.foldl (crStep d C) (as, r0)).1.zpd_timestamp = as.zpd_timestamp := by
  intro locs
  induction locs with
  | nil =>
    intro as r0 _ _
    refine ⟨by simp, by simp, fun l _ => rfl, rfl⟩
  | cons l locs ih =>
    intro as r0 hnd hsome
    have hlmem : l ∉ locs := (List.nodup_cons.mp hnd).1
    have hnd' := (List.nodup_cons.mp hnd).2
    obtain ⟨v, hv⟩ := Option.isSome_iff_exists.mp (hsome l (List.mem_cons_self ..))
    have hstep : crStep d C (as, r0) l =
        (modVal as l fun u => { u with scores := u.scores ++ [C] },
         r0 ++ [rewardOf d (v.scores ++ [C])]) := by
      simp [crStep, hv]
    have hframe : ∀ l' ∈ locs,
        getVal (modVal as l fun u => { u with scores := u.scores ++ [C] }) l' =
          getVal as l' := fun l' hl' =>
      getVal_modVal_ne as l l' _ fun he => hlmem (he ▸ hl')
    have hsome1 : ∀ l' ∈ locs,
        (getVal (modVal as l fun u => { u with scores := u.scores ++ [C] }) l').isSome :=
      fun l' hl' => by rw [hframe l' hl']; exact hsome l' (List.mem_cons_of_mem _ hl')
    have ihx := ih (modVal as l fun u => { u with scores := u.scores ++ [C] })
      (r0 ++ [rewardOf d (v.scores ++ [C])]) hnd' hsome1
    rw [List.foldl_cons, hstep]
    refine ⟨?_, ?_, ?_, ?_⟩
    · rw [ihx.1]
      have hmap : locs.map (fun l' => rewardOf d
            (((getVal (modVal as l fun u => { u with scores := u.scores ++ [C] }) l').getD
              blankV).scores ++ [C])) =
          locs.map (fun l' => rewardOf d (((getVal as l').getD blankV).scores ++ [C])) :=
        List.map_congr_left fun l' hl' => by rw [hframe l' hl']
      rw [hmap, List.map_cons, hv]
      simp
    · intro l' v' hl' hv'
      rcases List.mem_cons.mp hl' with he | htl
      · subst he
        have hv2 : v' = v := by rw [hv] at hv'; exact (Option.some.injEq .. ▸ hv').symm
        subst hv2
        rw [ihx.2.2.1 l' hlmem, getVal_modVal_self, hv]
        rfl
      · exact ihx.2.1 l' v' htl (by rw [hframe l' htl]; exact hv')
    · intro l' hl'
      have hne : l' ∉ locs := fun hc => hl' (List.mem_cons_of_mem _ hc)
      have hne2 : l ≠ l' := fun he => hl' (he ▸ List.mem_cons_self ..)
      rw [ihx.2.2.1 l' hne, getVal_modVal_ne as l l' _ hne2]
    · rw [ihx.2.2.2, modVal_timestamp]

theorem lastN_length (k : ℕ) (l : List α) (h : k ≤ l.length) :
    (lastN k l).length = k := by
  simp [lastN]
  omega

theorem lastN_drop (s : List ℚ) (n c : ℕ) (hc : c ≤ n) (hn : n ≤ s.length) :
    (lastN n s).drop (n - c) = lastN c s := by
  unfold lastN
  rw [List.drop_drop]
  congr 1
  omega

/-- The trend reward is positive on a strictly increasing considered
window. -/
theorem rewardOf_pos (d : ℕ) (s : List ℚ) (h2 : 2 ≤ min s.length d)
    (hmono : (lastN (min s.length d) s).Pairwise (· < ·)) : 0 < rewardOf d s := by
  unfold rewardOf
  rw [if_pos (by omega)]
  set n := min s.length d with hn
  set c := (n + 1) / 2 with hc
  have hnlen : n ≤ s.length := by omega
  have hcn : c ≤ n := by omega
  have hwlen : (lastN n s).length = n := lastN_length n s hnlen
  have hsplit : (lastN n s).take (n - c) ++ lastN c s = lastN n s := by
    rw [← lastN_drop s n c hcn hnlen]
    exact List.take_append_drop _ _
  have holen : ((lastN n s).take (n - c)).length = n - c := by
    rw [List.length_take, hwlen]
    omega
  have hrlen : (lastN c s).length = c := lastN_length c s (le_trans hcn hnlen)
  have hone : 1 ≤ n - c := by omega
  have hcpos : 1 ≤ c := by omega
  rcases hrec : lastN c s with _ | ⟨a, rest⟩
  · rw [hrec] at hrlen; simp at hrlen; omega
  · have hpair : ((lastN n s).take (n - c)).Pairwise (· < ·) ∧
        (lastN c s).Pairwise (· < ·) ∧
        ∀ x ∈ (lastN n s).take (n - c), ∀ y ∈ lastN c s, x < y := by
      have := hsplit ▸ hmono
      rw [List.pairwise_append] at this
      exact this
    have hxa : ∀ x ∈ (lastN n s).take (n - c), x < a := fun x hx =>
      hpair.2.2 x hx a (by rw [hrec]; exact List.mem_cons_self ..)
    have hay : ∀ y ∈ lastN c s, a ≤ y := by
      intro y hy
      rw [hrec] at hy
      rcases List.mem_cons.mp hy with he | htl
      · exact he ▸ le_refl a
      · have hp2 := hrec ▸ hpair.2.1
        rw [List.pairwise_cons] at hp2
        exact le_of_lt (hp2.1 y htl)
    have hne : (lastN n s).take (n - c) ≠ [] := by
      intro hc2
      rw [hc2] at holen
      simp at holen
      omega
    have hlt : ((lastN n s).take (n - c)).sum / ((n - c : ℕ) : ℚ) < a := by
      rw [div_lt_iff (by exact_mod_cast Nat.lt_of_lt_of_le Nat.zero_lt_one hone)]
      have := listSum_lt _ a hne hxa
      rw [holen] at this
      linarith [this]
    have hge : a ≤ (lastN c s).sum / (c : ℚ) := by
      rw [le_div_iff (by exact_mod_cast hcpos)]
      have := le_listSum _ a hay
      rw [hrlen] at this
      linarith [this]
    linarith

/-- The trend reward is negative on a strictly decreasing considered
window. -/
theorem rewardOf_neg (d : ℕ) (s : List ℚ) (h2 : 2 ≤ min s.length d)
    (hmono : (lastN (min s.length d) s).Pairwise (· > ·)) : rewardOf d s < 0 := by
  unfold rewardOf
  rw [if_pos (by omega)]
  set n := min s.length d with hn
  set c := (n + 1) / 2 with hc
  have hnlen : n ≤ s.length := by omega
  have hcn : c ≤ n := by omega
  have hwlen : (lastN n s).length = n := lastN_length n s hnlen
  have hsplit : (lastN n s).take (n - c) ++ lastN c s = lastN n s := by
    rw [← lastN_drop s n c hcn hnlen]
    exact List.take_append_drop _ _
  have holen : ((lastN n s).take (n - c)).length = n - c := by
    rw [List.length_take, hwlen]
    omega
  have hrlen : (lastN c s).length = c := lastN_length c s (le_trans hcn hnlen)
  have hone : 1 ≤ n - c := by omega
  have hcpos : 1 ≤ c := by omega
  rcases hrec : lastN c s with _ | ⟨a, rest⟩
  · rw [hrec] at hrlen; simp at hrlen; omega
  · have hpair : ((lastN n s).take (n - c)).Pairwise (· > ·) ∧
        (lastN c s).Pairwise (· > ·) ∧
        ∀ x ∈ (lastN n s).take (n - c), ∀ y ∈ lastN c s, x > y := by
      have := hsplit ▸ hmono
      rw [List.pairwise_append] at this
      exact this
    have hxa : ∀ x ∈ (lastN n s).take (n - c), a < x := fun x hx =>
      hpair.2.2 x hx a (by rw [hrec]; exact List.mem_cons_self ..)
    have hay : ∀ y ∈ lastN c s, y ≤ a := by
      intro y hy
      rw [hrec] at hy
      rcases List.mem_cons.mp hy with he | htl
      · exact he ▸ le_refl a
      · have hp2 := hrec ▸ hpair.2.1
        rw [List.pairwise_cons] at hp2
        exact le_of_lt (hp2.1 y htl)
    have hne : (lastN n s).take (n - c) ≠ [] := by
      intro hc2
      rw [hc2] at holen
      simp at holen
      omega
    have hgt : a < ((lastN n s).take (n - c)).sum / ((n - c : ℕ) : ℚ) := by
      rw [lt_div_iff (by exact_mod_cast Nat.lt_of_lt_of_le Nat.zero_lt_one hone)]
      have := lt_listSum _ a hne hxa
      rw [holen] at this
      linarith [this]
    have hle : (lastN c s).sum / (c : ℚ) ≤ a := by
      rw [div_le_iff (by exact_mod_cast hcpos)]
      have := listSum_le _ a hay
      rw [hrlen] at this
      linarith [this]
    linarith

/-- The trend reward is zero on a constant considered window. -/
theorem rewardOf_const (d : ℕ) (s : List ℚ) (a : ℚ) (h2 : 2 ≤ min s.length d)
    (hconst : ∀ x ∈ lastN (min s.length d) s, x = a) : rewardOf d s = 0 := by
  unfold rewardOf
  rw [if_pos (by omega)]
  set n := min s.length d with hn
  set c := (n + 1) / 2 with hc
  have hnlen : n ≤ s.length := by omega
  have hcn : c ≤ n := by omega
  have hwlen : (lastN n s).length = n := lastN_length n s hnlen
  have hsplit : (lastN n s).take (n - c) ++ lastN c s = lastN n s := by
    rw [← lastN_drop s n c hcn hnlen]
    exact List.take_append_drop _ _
  have holen : ((lastN n s).take (n - c)).length = n - c := by
    rw [List.length_take, hwlen]
    omega
  have hrlen : (lastN c s).length = c := lastN_length c s (le_trans hcn hnlen)
  have hco : ∀ x ∈ (lastN n s).take (n - c), x = a := fun x hx =>
    hconst x (by rw [← hsplit]; exact List.mem_append_left _ hx)
  have hcr : ∀ y ∈ lastN c s, y = a := fun y hy =>
    hconst y (by rw [← hsplit]; exact List.mem_append_right _ hy)
  show (lastN c s).sum / (c : ℚ) - ((lastN n s).take (n - c)).sum / ((n - c : ℕ) : ℚ) = 0
  rw [listSum_eq _ a hco, listSum_eq _ a hcr, holen, hrlen]
  have hcq : (c : ℚ) ≠ 0 := Nat.cast_ne_zero.mpr (by omega)
  have hoq : ((n - c : ℕ) : ℚ) ≠ 0 := Nat.cast_ne_zero.mpr (by omega)
  rw [mul_div_cancel_left₀ a hcq, mul_div_cancel_left₀ a hoq, sub_self]

/-- C4: `computeReward(e, C)` appends the score `C` to each drawn arm's
history and returns, one reward per drawn arm in flattened draw order, the
reward computed by `rewardOf` from the arm's updated history — 0 when
`n = min(len(history), d) ≤ 1 ` and otherwise the mean of the most recent
`ceil(n/2)` scores minus the mean of the preceding `floor(n/2)` scores; on
a strictly increasing considered window the reward is positive, on a
strictly decreasing one negative and on a constant one zero. -/
theorem C4_compute_reward :
    (∀ (z : ZPDES) (e : List (List (ℕ × ℕ × ℕ))) (C : ℚ),
        e.flatten.Nodup → (∀ l ∈ e.flatten, (getVal z.A_S l).isSome) →
        (computeReward z e C).2 =
          e.flatten.map
            (fun l => rewardOf z.d (((getVal z.A_S l).getD blankV).scores ++ [C])) ∧
        ∀ l v, l ∈ e.flatten → getVal z.A_S l = some v →
          getVal (computeReward z e C).1.A_S l = some { v with scores := v.scores ++ [C] }) ∧
    (∀ (d : ℕ) (s : List ℚ), min s.length d ≤ 1 → rewardOf d s = 0) ∧
    (∀ (d : ℕ) (s : List ℚ), 2 ≤ min s.length d →
        (lastN (min s.length d) s).Pairwise (· < ·) → 0 < rewardOf d s) ∧
    (∀ (d : ℕ) (s : List ℚ), 2 ≤ min s.length d →
        (lastN (min s.length d) s).Pairwise (· > ·) → rewardOf d s < 0) ∧
    (∀ (d : ℕ) (s : List ℚ) (a : ℚ), 2 ≤ min s.length d →
        (∀ x ∈ lastN (min s.length d) s, x = a) → rewardOf d s = 0) := by
  refine ⟨?_, ?_, rewardOf_pos, rewardOf_neg, rewardOf_const⟩
  · intro z e C hnd hsome
    have h := crFold_spec z.d C e.flatten z.A_S [] hnd hsome
    exact ⟨by simpa [computeReward] using h.1,
      fun l v hl hv => by simpa [computeReward] using h.2.1 l v hl hv⟩
  · intro d s h
    rw [rewardOf, if_neg (by omega)]

/-- Witness for C4: one drawn arm (the root `flexibility` arm of the
built-in configuration, empty history) with score 1. -/
theorem C4_compute_reward_witness :
    (computeReward (initZPDES 0 6 0 0 0 0 0) [[((0 : ℕ), (0 : ℕ), (0 : ℕ))]] 1).2 =
      ([[((0 : ℕ), (0 : ℕ), (0 : ℕ))]] : List (List (ℕ × ℕ × ℕ))).flatten.map
        (fun l => rewardOf 6
          (((getVal (initZPDES 0 6 0 0 0 0 0).A_S l).getD blankV).scores ++ [1])) :=
  (C4_compute_reward.1 (initZPDES 0 6 0 0 0 0 0) [[((0 : ℕ), (0 : ℕ), (0 : ℕ))]] 1
    (by decide) (by decide)).1

/-! ## The activation scan -/

theorem passRel_refl (t : ℕ) (v : Value) : passRel t v v :=
  ⟨rfl, rfl, rfl, rfl, rfl, fun _ => rfl, fun _ => rfl, fun h => h⟩

theorem passRel_trans {t : ℕ} {v v1 v2 : Value} (h1 : passRel t v v1)
    (h2 : passRel t v1 v2) : passRel t v v2 := by
  obtain ⟨l1, c1, n1, a1, s1, act1, t1, m1⟩ := h1
  obtain ⟨l2, c2, n2, a2, s2, act2, t2, m2⟩ := h2
  refine ⟨l2.trans l1, c2.trans c1, n2.trans n1, a2.trans a1, s2.trans s1, ?_, ?_, ?_⟩
  · intro hv; rw [act2 ((act1 hv) ▸ hv), act1 hv]
  · intro hv; rw [t2 (a1 ▸ hv), t1 hv]
  · intro hv; exact m2 (m1 hv)

theorem length_activateStep (t : ℕ) (vs : List Value) (i : ℕ) :
    (activateStep t vs i).length = vs.length := by
  unfold activateStep
  rcases vs[i]? with _ | w
  · rfl
  · show (if t = w.activation then
        listModify
          (fun u => u.activate (listModify (fun w => { w with active := true }) i vs))
          i vs
      else vs).length = vs.length
    by_cases ht : t = w.activation
    · rw [if_pos ht, length_listModify]
    · rw [if_neg ht]

theorem activateStep_entry (t : ℕ) (vs : List Value) (i j : ℕ) (v : Value)
    (h : vs[j]? = some v) :
    ∃ v', (activateStep t vs i)[j]? = some v' ∧ passRel t v v' ∧
      (i = j → v.activation = t → v'.active = true) := by
  unfold activateStep
  rcases hvi : vs[i]? with _ | w
  · refine ⟨v, h, passRel_refl t v, fun hij _ => ?_⟩
    subst hij; rw [hvi] at h; simp at h
  · show ∃ v',
      (if t = w.activation then
        listModify
          (fun u => u.activate (listModify (fun w => { w with active := true }) i vs))
          i vs
      else vs)[j]? =
          some v' ∧ passRel t v v' ∧ (i = j → v.activation = t → v'.active = true)
    by_cases ht : t = w.activation
    · rw [if_pos ht]
      by_cases hij : i = j
      · subst hij
        have hw : w = v := by rw [hvi] at h; exact Option.some.inj h
        subst hw
        rw [getElem?_listModify_self, h, Option.map_some']
        by_cases ha : w.active = true
        · exact ⟨w.activate (listModify (fun w => { w with active := true }) i vs), rfl,
            by rw [Value.activate, if_pos ha]; exact passRel_refl t w,
            fun _ _ => by rw [Value.activate, if_pos ha]; exact ha⟩
        · refine ⟨w.activate (listModify (fun w => { w with active := true }) i vs), rfl,
            ?_, fun _ _ => ?_⟩
          · rw [Value.activate, if_neg ha]
            exact ⟨rfl, rfl, rfl, rfl, rfl, fun hc => absurd hc ha,
              fun hc => absurd ht.symm hc, fun hc => absurd hc ha⟩
          · rw [Value.activate, if_neg ha]
      · rw [getElem?_listModify_ne _ _ (fun hc => hij hc.symm), h]
        exact ⟨v, rfl, passRel_refl t v, fun hc => absurd hc hij⟩
    · rw [if_neg ht]
      refine ⟨v, h, passRel_refl t v, fun hij hat => ?_⟩
      subst hij
      rw [hvi] at h
      rw [Option.some.inj h] at ht
      exact absurd hat.symm ht

theorem foldSteps_entry (t : ℕ) (is : List ℕ) :
    ∀ (vs : List Value) (j : ℕ) (v : Value), vs[j]? = some v →
      ∃ v', (is.foldl (activateStep t) vs)[j]? = some v' ∧ passRel t v v' ∧
        (j ∈ is → v.activation = t → v'.active = true) := by
  induction is with
  | nil => exact fun vs j v h => ⟨v, h, passRel_refl t v, by simp⟩
  | cons i is ih =>
    intro vs j v h
    obtain ⟨v1, h1, rel1, extra1⟩ := activateStep_entry t vs i j v h
    obtain ⟨v2, h2, rel2, mem2⟩ := ih (activateStep t vs i) j v1 h1
    refine ⟨v2, by simpa using h2, passRel_trans rel1 rel2, fun hmem hat => ?_⟩
    rcases List.mem_cons.mp hmem with he | htl
    · exact rel2.2.2.2.2.2.2.2 (extra1 he.symm hat)
    · exact mem2 htl (rel1.2.2.2.1 ▸ hat)

theorem length_foldSteps (t : ℕ) (is : List ℕ) :
    ∀ vs : List Value, (is.foldl (activateStep t) vs).length = vs.length := by
  induction is with
  | nil => exact fun vs => rfl
  | cons i is ih =>
    intro vs
    rw [List.foldl_cons, ih, length_activateStep]

theorem length_activatePass (t : ℕ) (vs : List Value) :
    (activatePass t vs).length = vs.length := length_foldSteps t _ vs

/-- The entry-wise effect of the activation scan over a parameter: every arm
keeps its static fields; already active arms and arms whose activation stage
differs from `t` are untouched; every arm whose activation stage is `t` ends
up active. -/
theorem activatePass_entry (t : ℕ) (vs : List Value) (j : ℕ) (v : Value)
    (h : vs[j]? = some v) :
    ∃ v', (activatePass t vs)[j]? = some v' ∧ passRel t v v' ∧
      (v.activation = t → v'.active = true) := by
  have hj : j < vs.length := by
    by_contra hc
    rw [List.getElem?_eq_none (by omega)] at h
    simp at h
  obtain ⟨v', h', rel, hmem⟩ := foldSteps_entry t (List.range vs.length) vs j v h
  exact ⟨v', h', rel, hmem (List.mem_range.mpr hj)⟩

theorem expandCheck_iff (z : ZPDES) :
    expandCheck z = true ↔
      ∀ g ∈ z.A_S.groups, ∀ p ∈ g.params, ∀ v ∈ p.values,
        v.active = true → z.lambdaZPD ≤ v.success_rate := by
  unfold expandCheck
  constructor
  · intro h g hg p hp v hv ha
    have h1 := List.all_eq_true.mp (List.all_eq_true.mp (List.all_eq_true.mp h g hg) p hp) v hv
    rw [ha] at h1
    simp at h1
    first
    | exact h1
    | exact not_lt.mp h1
    | linarith [h1]
  · intro h
    rw [List.all_eq_true]
    intro g hg
    rw [List.all_eq_true]
    intro p hp
    rw [List.all_eq_true]
    intro v hv
    by_cases ha : v.active = true
    · have h1 := h g hg p hp v hv ha
      simp [ha]
      first
      | exact h1
      | exact not_lt.mpr h1
      | linarith [h1]
    · simp
      exact Or.inl (Bool.eq_false_iff.mpr ha)

theorem getVal_some_destruct (as : ActivitySpace) (loc : ℕ × ℕ × ℕ) (v : Value)
    (h : getVal as loc = some v) :
    ∃ g p, as.groups[loc.1]? = some g ∧ g.params[loc.2.1]? = some p ∧
      p.values[loc.2.2]? = some v := by
  unfold getVal at h
  rcases hg : as.groups[loc.1]? with _ | g
  · rw [hg] at h; simp at h
  · rw [hg] at h
    have h2 : (match g.params[loc.2.1]? with
        | none => none
        | some p => p.values[loc.2.2]?) = some v := h
    rcases hp : g.params[loc.2.1]? with _ | p
    · rw [hp] at h2; simp at h2
    · rw [hp] at h2
      exact ⟨g, p, rfl, hp, h2⟩

theorem getVal_construct (as : ActivitySpace) (loc : ℕ × ℕ × ℕ) (g : Group)
    (p : Param) (hg : as.groups[loc.1]? = some g) (hp : g.params[loc.2.1]? = some p) :
    getVal as loc = p.values[loc.2.2]? := by
  unfold getVal
  rw [hg]
  show (match g.params[loc.2.1]? with
      | none => none
      | some p => p.values[loc.2.2]?) = p.values[loc.2.2]?
  rw [hp]

theorem stagePhase_timestamp (z : ZPDES) :
    (stagePhase z).A_S.zpd_timestamp =
      if expandCheck z then z.A_S.zpd_timestamp + 1 else z.A_S.zpd_timestamp := by
  unfold stagePhase
  by_cases h : expandCheck z = true
  · rw [if_pos h, if_pos h]
  · rw [if_neg h, if_neg h]

/-- Entry-wise effect of the advancement phase on a single arm position. -/
theorem stagePhase_entry (z : ZPDES) (loc : ℕ × ℕ × ℕ) (v : Value)
    (h : getVal z.A_S loc = some v) :
    ∃ v', getVal (stagePhase z).A_S loc = some v' ∧
      passRel (z.A_S.zpd_timestamp + 1) v v' ∧
      (expandCheck z = false → v' = v) ∧
      (expandCheck z = true → v.activation = z.A_S.zpd_timestamp + 1 →
        v'.active = true) := by
  by_cases hc : expandCheck z = true
  · obtain ⟨g, p, hg, hp, hv⟩ := getVal_some_destruct z.A_S loc v h
    obtain ⟨v', hv', rel, hact⟩ :=
      activatePass_entry (z.A_S.zpd_timestamp + 1) p.values loc.2.2 v hv
    refine ⟨v', ?_, rel, fun hf => absurd hc (by simp [hf]), fun _ => hact⟩
    have hg2 : (stagePhase z).A_S.groups[loc.1]? =
        some (groupPass (z.A_S.zpd_timestamp + 1) g) := by
      unfold stagePhase
      rw [if_pos hc]
      simp only [List.getElem?_map, hg, Option.map_some']
    have hp2 : (groupPass (z.A_S.zpd_timestamp + 1) g).params[loc.2.1]? =
        some (paramPass (z.A_S.zpd_timestamp + 1) p) := by
      rw [show (groupPass (z.A_S.zpd_timestamp + 1) g).params =
          g.params.map (paramPass (z.A_S.zpd_timestamp + 1)) from rfl]
      simp only [List.getElem?_map, hp, Option.map_some']
    rw [getVal_construct (stagePhase z).A_S loc _
      (paramPass (z.A_S.zpd_timestamp + 1) p) hg2 hp2]
    exact hv'
  · have hz : stagePhase z = z := by unfold stagePhase; rw [if_neg hc]
    exact ⟨v, by rw [hz]; exact h, passRel_refl _ v, fun _ => rfl, fun ht => absurd ht hc⟩

theorem applyRule_timestamp (lamA : ℚ) (as : ActivitySpace) (r : DeactRule) :
    (applyRule lamA as r).zpd_timestamp = as.zpd_timestamp := by
  unfold applyRule
  rcases getByLabel as r.group r.param r.value with _ | v
  · rfl
  · show (if lamA < v.success_rate ∧ r.minStage ≤ as.zpd_timestamp then
        modifyByLabel as r.group r.param r.value fun u => { u with active := false }
      else as).zpd_timestamp = as.zpd_timestamp
    by_cases hc : lamA < v.success_rate ∧ r.minStage ≤ as.zpd_timestamp
    · rw [if_pos hc]; rfl
    · rw [if_neg hc]

theorem foldRules_timestamp (lamA : ℚ) :
    ∀ (rs : List DeactRule) (as : ActivitySpace),
      (rs.foldl (applyRule lamA) as).zpd_timestamp = as.zpd_timestamp := by
  intro rs
  induction rs with
  | nil => exact fun as => rfl
  | cons r rs ih => intro as; rw [List.foldl_cons, ih, applyRule_timestamp]

theorem deactPhase_timestamp (z : ZPDES) :
    (deactPhase z).A_S.zpd_timestamp = z.A_S.zpd_timestamp :=
  foldRules_timestamp z.lambdaA deactRules z.A_S

theorem updateZPD_timestamp (z : ZPDES) :
    (updateZPD z).A_S.zpd_timestamp =
      if expandCheck z then z.A_S.zpd_timestamp + 1 else z.A_S.zpd_timestamp := by
  unfold updateZPD
  rw [deactPhase_timestamp, stagePhase_timestamp]

/-- C1: the stage counter starts at 1; an update cycle increments it by
exactly 1 iff every active arm graph-wide has success rate at least
`lambdaZPD`, and leaves it unchanged otherwise (hence it is monotonically
non-decreasing); when advancement happens, every arm whose activation stage
equals the new stage value is active after the advancement pass. -/
theorem C1_stage_advancement :
    (∀ (gamma : ℚ) (d : ℕ) (lamZ lamA beta eta sf : ℚ),
        (initZPDES gamma d lamZ lamA beta eta sf).A_S.zpd_timestamp = 1) ∧
    (∀ z : ZPDES,
        (((updateZPD z).A_S.zpd_timestamp = z.A_S.zpd_timestamp + 1) ↔
          ∀ g ∈ z.A_S.groups, ∀ p ∈ g.params, ∀ v ∈ p.values,
            v.active = true → z.lambdaZPD ≤ v.success_rate) ∧
        ((¬ ∀ g ∈ z.A_S.groups, ∀ p ∈ g.params, ∀ v ∈ p.values,
            v.active = true → z.lambdaZPD ≤ v.success_rate) →
          (updateZPD z).A_S.zpd_timestamp = z.A_S.zpd_timestamp) ∧
        z.A_S.zpd_timestamp ≤ (updateZPD z).A_S.zpd_timestamp) ∧
    (∀ (z : ZPDES) (loc : ℕ × ℕ × ℕ) (v : Value),
        expandCheck z = true → getVal z.A_S loc = some v →
        v.activation = z.A_S.zpd_timestamp + 1 →
        ∃ v', getVal (stagePhase z).A_S loc = some v' ∧ v'.active = true) := by
  refine ⟨fun gamma d lamZ lamA beta eta sf => rfl, fun z => ?_, fun z loc v hc h hact => ?_⟩
  · have ht := updateZPD_timestamp z
    by_cases hc : expandCheck z = true
    · rw [hc] at ht
      simp only [if_true] at ht
      exact ⟨⟨fun _ => (expandCheck_iff z).mp hc, fun _ => ht⟩,
        fun hn => absurd ((expandCheck_iff z).mp hc) hn, by omega⟩
    · have hcf : expandCheck z = false := Bool.eq_false_iff.mpr hc
      rw [hcf] at ht
      simp only [Bool.false_eq_true, if_false] at ht
      refine ⟨⟨fun he => ?_, fun hall => absurd ((expandCheck_iff z).mpr hall) hc⟩,
        fun _ => ht, by omega⟩
      rw [ht] at he
      exact absurd he (by omega)
  · obtain ⟨v', hv', _, _, hfin⟩ := stagePhase_entry z loc v h
    exact ⟨v', hv', hfin hc hact⟩

set_option maxHeartbeats 2000000 in
/-- The built-in activity space evaluated to its literal group list. -/
theorem initAS_eq : initAS = ⟨1, initASList⟩ := by decide

/-- Witness for C1 on the fresh engine with `lambdaZPD = 1`: the root
`flexibility` arm is active with no scores, so its success rate 0 blocks
advancement and the stage stays 1. -/
theorem C1_stage_advancement_witness :
    (updateZPD (initZPDES 0 6 1 0 0 0 10)).A_S.zpd_timestamp =
      (initZPDES 0 6 1 0 0 0 10).A_S.zpd_timestamp :=
  (C1_stage_advancement.2.1 (initZPDES 0 6 1 0 0 0 10)).2.1 (by
    intro hall
    have hAS : (initZPDES 0 6 1 0 0 0 10).A_S = ⟨1, initASList⟩ := initAS_eq
    have hgm : (⟨"Type", [⟨"Type",
        [⟨"flexibility", "F", some "Flexibility Motion", true, 0, [], 1⟩,
         ⟨"quality", "Q", some "Quality Movement Level", false, 0, [], 2⟩]⟩]⟩ : Group) ∈
        (initZPDES 0 6 1 0 0 0 10).A_S.groups := by
      rw [hAS]
      exact List.mem_cons_self ..
    have h1 := hall _ hgm ⟨"Type",
        [⟨"flexibility", "F", some "Flexibility Motion", true, 0, [], 1⟩,
         ⟨"quality", "Q", some "Quality Movement Level", false, 0, [], 2⟩]⟩
      (List.mem_cons_self ..)
      ⟨"flexibility", "F", some "Flexibility Motion", true, 0, [], 1⟩
      (List.mem_cons_self ..) rfl
    rw [show Value.success_rate
        ⟨"flexibility", "F", some "Flexibility Motion", true, 0, [], 1⟩ = 0
      from by simp [Value.success_rate]] at h1
    rw [show (initZPDES 0 6 1 0 0 0 10).lambdaZPD = 1 from rfl] at h1
    norm_num at h1)

/-! ## Positional effect of the retirement phase -/

theorem getVal_groups_entry (as as' : ActivitySpace) (loc : ℕ × ℕ × ℕ)
    (h : as'.groups[loc.1]? = as.groups[loc.1]?) : getVal as' loc = getVal as loc := by
  unfold getVal
  rw [h]

theorem getVal_params_entry (as as' : ActivitySpace) (loc : ℕ × ℕ × ℕ)
    (g g' : Group) (hg : as.groups[loc.1]? = some g)
    (hg' : as'.groups[loc.1]? = some g')
    (h : g'.params[loc.2.1]? = g.params[loc.2.1]?) :
    getVal as' loc = getVal as loc := by
  unfold getVal
  rw [hg, hg']
  show (match g'.params[loc.2.1]? with
      | none => none
      | some p => p.values[loc.2.2]?) =
    (match g.params[loc.2.1]? with
      | none => none
      | some p => p.values[loc.2.2]?)
  rw [h]

theorem getVal_modifyByLabel_cases (as : ActivitySpace) (gl pl vl : String)
    (f : Value → Value) (loc : ℕ × ℕ × ℕ) :
    getVal (modifyByLabel as gl pl vl f) loc = getVal as loc ∨
    ∃ v, getVal as loc = some v ∧
      getVal (modifyByLabel as gl pl vl f) loc = some (f v) := by
  have hgroups : (modifyByLabel as gl pl vl f).groups =
      modifyFirst (fun g => g.label = gl) (paramModF pl vl f) as.groups := rfl
  rcases getElem?_modifyFirst (fun g => g.label = gl) (paramModF pl vl f)
      as.groups loc.1 with hG | ⟨g, hg, hg2⟩
  · exact Or.inl (getVal_groups_entry as _ loc (by rw [hgroups, hG]))
  · have hg2' : (modifyByLabel as gl pl vl f).groups[loc.1]? =
        some (paramModF pl vl f g) := by rw [hgroups]; exact hg2
    have hparams : (paramModF pl vl f g).params =
        modifyFirst (fun p => p.label = pl) (valModF vl f) g.params := rfl
    rcases getElem?_modifyFirst (fun p => p.label = pl) (valModF vl f)
        g.params loc.2.1 with hP | ⟨p, hp, hp2⟩
    · exact Or.inl (getVal_params_entry as _ loc g _ hg hg2' (by rw [hparams, hP]))
    · have hp2' : (paramModF pl vl f g).params[loc.2.1]? =
          some (valModF vl f p) := by rw [hparams]; exact hp2
      have hvalues : (valModF vl f p).values =
          modifyFirst (fun v => v.label = vl) f p.values := rfl
      rcases getElem?_modifyFirst (fun v => v.label = vl) f p.values loc.2.2 with
        hV | ⟨v, hv, hv2⟩
      · left
        rw [getVal_construct _ loc _ _ hg2' hp2', getVal_construct as loc g p hg hp,
          hvalues, hV]
      · right
        refine ⟨v, by rw [getVal_construct as loc g p hg hp]; exact hv, ?_⟩
        rw [getVal_construct _ loc _ _ hg2' hp2', hvalues]
        exact hv2

theorem getVal_applyRule_cases (lamA : ℚ) (as : ActivitySpace) (r : DeactRule)
    (loc : ℕ × ℕ × ℕ) :
    getVal (applyRule lamA as r) loc = getVal as loc ∨
    ∃ v, getVal as loc = some v ∧
      getVal (applyRule lamA as r) loc = some { v with active := false } := by
  unfold applyRule
  rcases getByLabel as r.group r.param r.value with _ | v0
  · left; rfl
  · show getVal (if lamA < v0.success_rate ∧ r.minStage ≤ as.zpd_timestamp then
        modifyByLabel as r.group r.param r.value fun u => { u with active := false }
      else as) loc = getVal as loc ∨
      ∃ v, getVal as loc = some v ∧
        getVal (if lamA < v0.success_rate ∧ r.minStage ≤ as.zpd_timestamp then
          modifyByLabel as r.group r.param r.value fun u => { u with active := false }
        else as) loc = some { v with active := false }
    by_cases hc : lamA < v0.success_rate ∧ r.minStage ≤ as.zpd_timestamp
    · rw [if_pos hc]
      exact getVal_modifyByLabel_cases as r.group r.param r.value _ loc
    · rw [if_neg hc]; left; rfl

theorem getVal_foldRules_cases (lamA : ℚ) :
    ∀ (rs : List DeactRule) (as : ActivitySpace) (loc : ℕ × ℕ × ℕ),
      getVal (rs.foldl (applyRule lamA) as) loc = getVal as loc ∨
      ∃ v, getVal as loc = some v ∧
        getVal (rs.foldl (applyRule lamA) as) loc = some { v with active := false } := by
  intro rs
  induction rs with
  | nil => intro as loc; left; rfl
  | cons r rs ih =>
    intro as loc
    rw [List.foldl_cons]
    rcases getVal_applyRule_cases lamA as r loc with h1 | ⟨v, hv, hv2⟩
    · rcases ih (applyRule lamA as r) loc with h2 | ⟨v, hv, hv2⟩
      · left; rw [h2, h1]
      · right; exact ⟨v, h1 ▸ hv, hv2⟩
    · rcases ih (applyRule lamA as r) loc with h2 | ⟨v2, hv2', hv2''⟩
      · right; exact ⟨v, hv, h2 ▸ hv2⟩
      · right
        refine ⟨v, hv, ?_⟩
        rw [hv2] at hv2'
        have hveq : { v with active := false } = v2 := Option.some.inj hv2'
        rw [hv2'', ← hveq]

/-! ## The weight-update fold -/

theorem wFold_spec (beta eta : ℚ) :
    ∀ (pairs : List ((ℕ × ℕ × ℕ) × ℚ)) (as : ActivitySpace),
      (pairs.map Prod.fst).Nodup →
      (∀ lr v, lr ∈ pairs → getVal as lr.1 = some v →
        getVal (pairs.foldl (wStep beta eta) as) lr.1 =
          some { v with weight := beta * v.weight + eta * lr.2 }) ∧
      (∀ l, (∀ lr ∈ pairs, lr.1 ≠ l) →
        getVal (pairs.foldl (wStep beta eta) as) l = getVal as l) ∧
      (pairs.foldl (wStep beta eta) as).zpd_timestamp = as.zpd_timestamp := by
  intro pairs
  induction pairs with
  | nil => exact fun as _ => ⟨fun lr v h => by simp at h, fun l _ => rfl, rfl⟩
  | cons lr0 pairs ih =>
    intro as hnd
    rw [List.map_cons] at hnd
    have hmem : lr0.1 ∉ pairs.map Prod.fst := (List.nodup_cons.mp hnd).1
    have hnd' : (pairs.map Prod.fst).Nodup := (List.nodup_cons.mp hnd).2
    have ihx := ih (wStep beta eta as lr0) hnd'
    rw [List.foldl_cons]
    have hne : ∀ lr ∈ pairs, lr.1 ≠ lr0.1 := by
      intro lr hlr he
      exact hmem (he ▸ List.mem_map_of_mem Prod.fst hlr)
    refine ⟨?_, ?_, ?_⟩
    · intro lr v hlr hv
      rcases List.mem_cons.mp hlr with he | htl
      · subst he
        rw [ihx.2.1 lr.1 (fun lr2 h2 => hne lr2 h2)]
        unfold wStep
        rw [getVal_modVal_self, hv]
        rfl
      · have hframe : getVal (wStep beta eta as lr0) lr.1 = getVal as lr.1 :=
          getVal_modVal_ne as lr0.1 lr.1 _ fun he2 => (hne lr htl) he2.symm
        exact ihx.1 lr v htl (by rw [hframe]; exact hv)
    · intro l hl
      rw [ihx.2.1 l (fun lr2 h2 => hl lr2 (List.mem_cons_of_mem _ h2))]
      exact getVal_modVal_ne as lr0.1 l _ (hl lr0 (List.mem_cons_self ..))
    · rw [ihx.2.2]
      exact modVal_timestamp ..

set_option maxHeartbeats 2000000 in
/-- C6: in `update(e, C)`, every drawn arm's weight becomes
`beta·weight + eta·reward`, where the reward is the arm's entry of the
`computeReward` result in the same flattened draw order, and no
normalization is applied afterwards (the equality is exact in the final
state). -/
theorem C6_weight_update :
    ∀ (z : ZPDES) (e : List (List (ℕ × ℕ × ℕ))) (C : ℚ),
      e.flatten.Nodup →
      (∀ l ∈ e.flatten, ∃ v, getVal z.A_S l = some v ∧ v.active = true) →
      ∀ (i : ℕ) (l : ℕ × ℕ × ℕ) (v : Value),
        e.flatten[i]? = some l → getVal z.A_S l = some v →
        ∃ v' ri, (computeReward z e C).2[i]? = some ri ∧
          getVal (update z e C).A_S l = some v' ∧
          v'.weight = z.beta * v.weight + z.eta * ri := by
  intro z e C hnd hact i l v hil hv
  have hsome : ∀ l' ∈ e.flatten, (getVal z.A_S l').isSome := fun l' hl' => by
    obtain ⟨w, hw, _⟩ := hact l' hl'
    rw [hw]; rfl
  have hcr := crFold_spec z.d C e.flatten z.A_S [] hnd hsome
  have hlmem : l ∈ e.flatten := List.getElem?_mem hil
  -- the reward at index i
  have hri : (computeReward z e C).2[i]? =
      some (rewardOf z.d (v.scores ++ [C])) := by
    have h1 : (computeReward z e C).2 = (e.flatten.foldl (crStep z.d C) (z.A_S, [])).2 := rfl
    rw [h1, hcr.1]
    simp only [List.nil_append, List.getElem?_map, hil, Option.map_some', hv]
    rfl
  -- the state after computeReward at l
  have hv1 : getVal (computeReward z e C).1.A_S l =
      some { v with scores := v.scores ++ [C] } := hcr.2.1 l v hlmem hv
  -- the weight-update fold
  have h1 : (computeReward z e C).2 = (e.flatten.foldl (crStep z.d C) (z.A_S, [])).2 := rfl
  have hlen : (computeReward z e C).2.length = e.flatten.length := by
    rw [h1, hcr.1]
    simp only [List.nil_append, List.length_map]
  have hw := wFold_spec z.beta z.eta (e.flatten.zip (computeReward z e C).2)
    (computeReward z e C).1.A_S
    (by rw [List.map_fst_zip _ _ (le_of_eq hlen.symm)]; exact hnd)
  have hpair : (e.flatten.zip (computeReward z e C).2)[i]? =
      some (l, rewardOf z.d (v.scores ++ [C])) :=
    List.getElem?_zip_eq_some.mpr ⟨hil, hri⟩
  have hpmem : (l, rewardOf z.d (v.scores ++ [C])) ∈
      e.flatten.zip (computeReward z e C).2 := List.getElem?_mem hpair
  have hv2 := hw.1 (l, rewardOf z.d (v.scores ++ [C]))
    { v with scores := v.scores ++ [C] } hpmem hv1
  -- the state handed to updateZPD
  have hup : update z e C = updateZPD
      { (computeReward z e C).1 with
        A_S := (e.flatten.zip (computeReward z e C).2).foldl
          (wStep z.beta z.eta) (computeReward z e C).1.A_S } := rfl
  set v2 : Value := { v with
    scores := v.scores ++ [C]
    weight := z.beta * v.weight + z.eta * rewardOf z.d (v.scores ++ [C]) } with hv2def
  set z2 : ZPDES := { (computeReward z e C).1 with
    A_S := (e.flatten.zip (computeReward z e C).2).foldl
      (wStep z.beta z.eta) (computeReward z e C).1.A_S } with hz2def
  have hv2' : getVal z2.A_S l = some v2 := hv2
  have hvact : v.active = true := by
    obtain ⟨w, hw, hwact⟩ := hact l hlmem
    rw [hv] at hw
    rw [← Option.some.inj hw] at hwact
    exact hwact
  -- through the advancement phase: the arm is active, so untouched
  obtain ⟨v3, hv3, rel3, _, _⟩ := stagePhase_entry z2 l v2 hv2'
  have hv3eq : v3 = v2 := rel3.2.2.2.2.2.1 hvact
  subst hv3eq
  -- through the retirement phase: the weight survives either way
  have hupAS : (update z e C).A_S =
      deactRules.foldl (applyRule (stagePhase z2).lambdaA) (stagePhase z2).A_S := by
    rw [hup]
    rfl
  rcases getVal_foldRules_cases (stagePhase z2).lambdaA deactRules (stagePhase z2).A_S l with
    hd | ⟨v4, hv4, hv4'⟩
  · refine ⟨v2, rewardOf z.d (v.scores ++ [C]), hri, ?_, rfl⟩
    rw [hupAS, hd]
    exact hv3
  · rw [hv3] at hv4
    rw [← Option.some.inj hv4] at hv4'
    refine ⟨{ v2 with active := false }, rewardOf z.d (v.scores ++ [C]), hri, ?_, rfl⟩
    rw [hupAS]
    exact hv4'

set_option maxHeartbeats 1000000 in
/-- Witness for C6: one update on the root `flexibility` arm with
`beta = eta = 1`. -/
theorem C6_weight_update_witness :
    ∃ v' ri,
      (computeReward (initZPDES 0 6 0 0 1 1 10) [[((0 : ℕ), (0 : ℕ), (0 : ℕ))]] 1).2[0]? =
        some ri ∧
      getVal (update (initZPDES 0 6 0 0 1 1 10) [[((0 : ℕ), (0 : ℕ), (0 : ℕ))]] 1).A_S
        ((0 : ℕ), (0 : ℕ), (0 : ℕ)) = some v' ∧
      v'.weight = (initZPDES 0 6 0 0 1 1 10).beta *
          (⟨"flexibility", "F", some "Flexibility Motion", true, 0, [], 1⟩ : Value).weight +
        (initZPDES 0 6 0 0 1 1 10).eta * ri :=
  C6_weight_update (initZPDES 0 6 0 0 1 1 10) [[((0 : ℕ), (0 : ℕ), (0 : ℕ))]] 1
    (by decide)
    (fun l hl => by
      have hl' : l ∈ [((0 : ℕ), (0 : ℕ), (0 : ℕ))] := hl
      rw [List.mem_singleton.mp hl']
      exact ⟨⟨"flexibility", "F", some "Flexibility Motion", true, 0, [], 1⟩, by decide, rfl⟩)
    0 ((0 : ℕ), (0 : ℕ), (0 : ℕ))
    ⟨"flexibility", "F", some "Flexibility Motion", true, 0, [], 1⟩ (by decide) (by decide)

/-! ## Label-path lemmas -/

theorem find?_listModify (q : α → Bool) (F : α → α) (i : ℕ) (l : List α)
    (hq : ∀ a, q (F a) = q a) :
    (listModify F i l).find? q = (l.find? q).map F ∨
      (listModify F i l).find? q = l.find? q := by
  induction l generalizing i with
  | nil => right; cases i <;> rfl
  | cons a as ih =>
    cases i with
    | zero =>
      by_cases h : q a = true
      · left; simp [listModify, List.find?, hq, h]
      · simp only [Bool.not_eq_true] at h
        right; simp [listModify, List.find?, hq, h]
    | succ i =>
      by_cases h : q a = true
      · right; simp [listModify, List.find?, h]
      · simp only [Bool.not_eq_true] at h
        rcases ih i with h2 | h2
        · left; simpa [listModify, List.find?, h] using h2
        · right; simpa [listModify, List.find?, h] using h2

theorem find?_exists_of_rel {q : α → Bool} {R : α → α → Prop} :
    ∀ (l l' : List α), l'.length = l.length →
      (∀ (j : ℕ) (a : α), l[j]? = some a → ∃ b, l'[j]? = some b ∧ R a b ∧ q b = q a) →
      ∀ x, l'.find? q = some x → ∃ y, l.find? q = some y ∧ R y x := by
  intro l
  induction l with
  | nil =>
    intro l' hlen _ x hx
    rw [List.length_nil, List.length_eq_zero] at hlen
    subst hlen
    simp at hx
  | cons a as ih =>
    intro l' hlen hrel x hx
    cases l' with
    | nil => simp at hlen
    | cons b bs =>
      obtain ⟨b0, hb0, hR, hqeq⟩ := hrel 0 a (by simp)
      simp only [List.getElem?_cons_zero, Option.some.injEq] at hb0
      subst hb0
      by_cases hqa : q a = true
      · rw [List.find?_cons_of_pos _ (by rw [hqeq]; exact hqa)] at hx
        exact ⟨a, List.find?_cons_of_pos _ hqa ▸ rfl, Option.some.inj hx ▸ hR⟩
      · have hqa' : q a = false := Bool.eq_false_iff.mpr hqa
        rw [List.find?_cons_of_neg _ (by rw [hqeq, hqa']; simp)] at hx
        obtain ⟨y, hy, hyR⟩ := ih bs (by simpa using hlen)
          (fun j c hc => by
            obtain ⟨b2, hb2, hR2, hq2⟩ := hrel (j + 1) c (by simpa using hc)
            exact ⟨b2, by simpa using hb2, hR2, hq2⟩) x hx
        exact ⟨y, by rw [List.find?_cons_of_neg _ (by rw [hqa']; simp)]; exact hy, hyR⟩

theorem findVal_valModF_self (p : Param) (vl : String) (f : Value → Value)
    (hf : ∀ u, (f u).label = u.label) :
    findVal (valModF vl f p) vl = (findVal p vl).map f := by
  unfold findVal valModF
  exact find?_modifyFirst_self p.values fun v => by simp [hf]

theorem findVal_valModF_ne (p : Param) (vl vl' : String) (f : Value → Value)
    (hf : ∀ u, (f u).label = u.label) (h : vl ≠ vl') :
    findVal (valModF vl f p) vl' = findVal p vl' := by
  unfold findVal valModF
  exact find?_modifyFirst_other p.values (fun u => by simp [hf])
    (fun u hu => by
      simp only [decide_eq_true_eq] at hu
      simp [hu, h])

theorem findParamVal_paramModF_self (g : Group) (pl vl : String) (f : Value → Value)
    (hf : ∀ u, (f u).label = u.label) :
    findParamVal (paramModF pl vl f g) pl vl = (findParamVal g pl vl).map f := by
  unfold findParamVal
  rw [show (paramModF pl vl f g).params =
      modifyFirst (fun p => p.label = pl) (valModF vl f) g.params from rfl]
  rw [find?_modifyFirst_self g.params (fun p => by simp [valModF])]
  rcases hfp : g.params.find? (fun p => p.label = pl) with _ | p
  · rw [hfp]; rfl
  · rw [hfp]
    simp only [Option.map_some']
    exact findVal_valModF_self p vl f hf

theorem findParamVal_paramModF_ne (g : Group) (pl vl pl' vl' : String)
    (f : Value → Value) (hf : ∀ u, (f u).label = u.label)
    (hne : ¬(pl = pl' ∧ vl = vl')) :
    findParamVal (paramModF pl vl f g) pl' vl' = findParamVal g pl' vl' := by
  unfold findParamVal
  rw [show (paramModF pl vl f g).params =
      modifyFirst (fun p => p.label = pl) (valModF vl f) g.params from rfl]
  by_cases hp : pl = pl'
  · subst hp
    rw [find?_modifyFirst_self g.params (fun p => by simp [valModF])]
    rcases hfp : g.params.find? (fun p => p.label = pl) with _ | p
    · rw [hfp]; rfl
    · rw [hfp]
      simp only [Option.map_some']
      exact findVal_valModF_ne p vl vl' f hf fun hc => hne ⟨rfl, hc⟩
  · rw [find?_modifyFirst_other g.params (fun u => by simp [valModF])
      (fun u hu => by
        simp only [decide_eq_true_eq] at hu
        simp [hu, hp])]

theorem getByLabel_modifyByLabel_self (as : ActivitySpace) (gl pl vl : String)
    (f : Value → Value) (hf : ∀ u, (f u).label = u.label) :
    getByLabel (modifyByLabel as gl pl vl f) gl pl vl =
      (getByLabel as gl pl vl).map f := by
  unfold getByLabel
  rw [show (modifyByLabel as gl pl vl f).groups =
      modifyFirst (fun g => g.label = gl) (paramModF pl vl f) as.groups from rfl]
  rw [find?_modifyFirst_self as.groups (fun g => by simp [paramModF])]
  rcases hfg : as.groups.find? (fun g => g.label = gl) with _ | g
  · rw [hfg]; rfl
  · rw [hfg]
    simp only [Option.map_some']
    exact findParamVal_paramModF_self g pl vl f hf

theorem getByLabel_modifyByLabel_ne (as : ActivitySpace) (gl pl vl gl' pl' vl' : String)
    (f : Value → Value) (hf : ∀ u, (f u).label = u.label)
    (hne : ¬(gl = gl' ∧ pl = pl' ∧ vl = vl')) :
    getByLabel (modifyByLabel as gl pl vl f) gl' pl' vl' =
      getByLabel as gl' pl' vl' := by
  unfold getByLabel
  rw [show (modifyByLabel as gl pl vl f).groups =
      modifyFirst (fun g => g.label = gl) (paramModF pl vl f) as.groups from rfl]
  by_cases hg : gl = gl'
  · subst hg
    rw [find?_modifyFirst_self as.groups (fun g => by simp [paramModF])]
    rcases hfg : as.groups.find? (fun g => g.label = gl) with _ | g
    · rw [hfg]; rfl
    · rw [hfg]
      simp only [Option.map_some']
      exact findParamVal_paramModF_ne g pl vl pl' vl' f hf
        fun hc => hne ⟨rfl, hc.1, hc.2⟩
  · rw [find?_modifyFirst_other as.groups (fun u => by simp [paramModF])
      (fun u hu => by
        simp only [decide_eq_true_eq] at hu
        simp [hu, hg])]

/-! ## How one update cycle can change an arm found by label -/

theorem dynRel_refl (t : ℕ) (y : Value) : dynRel t y y :=
  ⟨rfl, rfl, fun h _ => h⟩

theorem dynRel_trans {t : ℕ} {y x w : Value} (h1 : dynRel t y x)
    (h2 : dynRel t x w) : dynRel t x w → dynRel t y w := fun _ =>
  ⟨h2.1.trans h1.1, h2.2.1.trans h1.2.1,
    fun ha hn => h2.2.2 (h1.2.2 ha hn) (h1.2.1 ▸ hn)⟩

theorem findVal_valModAt_cases (p : Param) (i : ℕ) (f : Value → Value)
    (hf : ∀ u, (f u).label = u.label) (vl : String) :
    findVal (valModAt i f p) vl = findVal p vl ∨
      ∃ y, findVal p vl = some y ∧ findVal (valModAt i f p) vl = some (f y) := by
  unfold findVal
  rw [show (valModAt i f p).values = listModify f i p.values from rfl]
  rcases find?_listModify (fun v : Value => v.label = vl) f i p.values
      (fun u => by show decide ((f u).label = vl) = decide (u.label = vl); rw [hf]) with h | h
  · rcases hfv : p.values.find? (fun v => v.label = vl) with _ | y
    · left; rw [h, hfv]; rfl
    · right; exact ⟨y, hfv, by rw [h, hfv]; rfl⟩
  · left; exact h

theorem findParamVal_paramModAt_cases (g : Group) (j i : ℕ) (f : Value → Value)
    (hf : ∀ u, (f u).label = u.label) (pl vl : String) :
    findParamVal (paramModAt j i f g) pl vl = findParamVal g pl vl ∨
      ∃ y, findParamVal g pl vl = some y ∧
        findParamVal (paramModAt j i f g) pl vl = some (f y) := by
  unfold findParamVal
  rw [show (paramModAt j i f g).params = listModify (valModAt i f) j g.params from rfl]
  rcases find?_listModify (fun p : Param => p.label = pl) (valModAt i f) j g.params
      (fun q => rfl) with h | h
  · rcases hfp : g.params.find? (fun p => p.label = pl) with _ | p
    · left; rw [h, hfp]; rfl
    · rw [h, hfp]
      simp only [Option.map_some']
      exact findVal_valModAt_cases p i f hf vl
  · left; rw [h]

theorem getByLabel_modVal_cases (as : ActivitySpace) (loc : ℕ × ℕ × ℕ)
    (f : Value → Value) (hf : ∀ u, (f u).label = u.label) (gl pl vl : String) :
    getByLabel (modVal as loc f) gl pl vl = getByLabel as gl pl vl ∨
      ∃ y, getByLabel as gl pl vl = some y ∧
        getByLabel (modVal as loc f) gl pl vl = some (f y) := by
  unfold getByLabel
  rw [show (modVal as loc f).groups =
      listModify (paramModAt loc.2.1 loc.2.2 f) loc.1 as.groups from rfl]
  rcases find?_listModify (fun g : Group => g.label = gl) (paramModAt loc.2.1 loc.2.2 f)
      loc.1 as.groups (fun g => rfl) with h | h
  · rcases hfg : as.groups.find? (fun g => g.label = gl) with _ | g
    · left; rw [h, hfg]; rfl
    · rw [h, hfg]
      simp only [Option.map_some']
      exact findParamVal_paramModAt_cases g loc.2.1 loc.2.2 f hf pl vl
  · left; rw [h]

theorem getByLabel_modifyByLabel_cases (as : ActivitySpace) (gl0 pl0 vl0 : String)
    (f : Value → Value) (hf : ∀ u, (f u).label = u.label) (gl pl vl : String) :
    getByLabel (modifyByLabel as gl0 pl0 vl0 f) gl pl vl = getByLabel as gl pl vl ∨
      ∃ y, getByLabel as gl pl vl = some y ∧
        getByLabel (modifyByLabel as gl0 pl0 vl0 f) gl pl vl = some (f y) := by
  by_cases hpath : gl0 = gl ∧ pl0 = pl ∧ vl0 = vl
  · obtain ⟨h1, h2, h3⟩ := hpath
    subst h1; subst h2; subst h3
    rw [getByLabel_modifyByLabel_self as gl0 pl0 vl0 f hf]
    rcases hfv : getByLabel as gl0 pl0 vl0 with _ | y
    · left; rfl
    · right; exact ⟨y, rfl, rfl⟩
  · left
    exact getByLabel_modifyByLabel_ne as gl0 pl0 vl0 gl pl vl f hf hpath

theorem getByLabel_crStep_rel (d : ℕ) (C : ℚ) (t : ℕ) (acc : ActivitySpace × List ℚ)
    (l : ℕ × ℕ × ℕ) (gl pl vl : String) :
    ∀ x, getByLabel (crStep d C acc l).1 gl pl vl = some x →
      ∃ y, getByLabel acc.1 gl pl vl = some y ∧ dynRel t y x := by
  intro x hx
  unfold crStep at hx
  rcases hloc : getVal acc.1 l with _ | v
  · rw [hloc] at hx
    exact ⟨x, hx, dynRel_refl t x⟩
  · rw [hloc] at hx
    have hx2 : getByLabel (modVal acc.1 l fun u => { u with scores := u.scores ++ [C] })
        gl pl vl = some x := hx
    rcases getByLabel_modVal_cases acc.1 l (fun u => { u with scores := u.scores ++ [C] })
        (fun u => rfl) gl pl vl with h | ⟨y, hy, hy2⟩
    · rw [h] at hx2
      exact ⟨x, hx2, dynRel_refl t x⟩
    · rw [hy2] at hx2
      rw [← Option.some.inj hx2]
      exact ⟨y, hy, rfl, rfl, fun ha _ => ha⟩

theorem getByLabel_crFold_rel (d : ℕ) (C : ℚ) (t : ℕ) (gl pl vl : String) :
    ∀ (locs : List (ℕ × ℕ × ℕ)) (acc : ActivitySpace × List ℚ) (x : Value),
      getByLabel (locs.foldl (crStep d C) acc).1 gl pl vl = some x →
      ∃ y, getByLabel acc.1 gl pl vl = some y ∧ dynRel t y x := by
  intro locs
  induction locs with
  | nil => exact fun acc x hx => ⟨x, hx, dynRel_refl t x⟩
  | cons l locs ih =>
    intro acc x hx
    rw [List.foldl_cons] at hx
    obtain ⟨y1, hy1, hrel1⟩ := ih (crStep d C acc l) x hx
    obtain ⟨y0, hy0, hrel0⟩ := getByLabel_crStep_rel d C t acc l gl pl vl y1 hy1
    exact ⟨y0, hy0, dynRel_trans hrel0 hrel1 hrel1⟩

theorem getByLabel_wStep_rel (beta eta : ℚ) (t : ℕ) (as : ActivitySpace)
    (lr : (ℕ × ℕ × ℕ) × ℚ) (gl pl vl : String) :
    ∀ x, getByLabel (wStep beta eta as lr) gl pl vl = some x →
      ∃ y, getByLabel as gl pl vl = some y ∧ dynRel t y x := by
  intro x hx
  unfold wStep at hx
  rcases getByLabel_modVal_cases as lr.1
      (fun u => { u with weight := beta * u.weight + eta * lr.2 })
      (fun u => rfl) gl pl vl with h | ⟨y, hy, hy2⟩
  · rw [h] at hx
    exact ⟨x, hx, dynRel_refl t x⟩
  · rw [hy2] at hx
    rw [← Option.some.inj hx]
    exact ⟨y, hy, rfl, rfl, fun ha _ => ha⟩

theorem getByLabel_wFold_rel (beta eta : ℚ) (t : ℕ) (gl pl vl : String) :
    ∀ (pairs : List ((ℕ × ℕ × ℕ) × ℚ)) (as : ActivitySpace) (x : Value),
      getByLabel (pairs.foldl (wStep beta eta) as) gl pl vl = some x →
      ∃ y, getByLabel as gl pl vl = some y ∧ dynRel t y x := by
  intro pairs
  induction pairs with
  | nil => exact fun as x hx => ⟨x, hx, dynRel_refl t x⟩
  | cons lr pairs ih =>
    intro as x hx
    rw [List.foldl_cons] at hx
    obtain ⟨y1, hy1, hrel1⟩ := ih (wStep beta eta as lr) x hx
    obtain ⟨y0, hy0, hrel0⟩ := getByLabel_wStep_rel beta eta t as lr gl pl vl y1 hy1
    exact ⟨y0, hy0, dynRel_trans hrel0 hrel1 hrel1⟩

theorem getByLabel_applyRule_rel (lamA : ℚ) (t : ℕ) (as : ActivitySpace)
    (r : DeactRule) (gl pl vl : String) :
    ∀ x, getByLabel (applyRule lamA as r) gl pl vl = some x →
      ∃ y, getByLabel as gl pl vl = some y ∧ dynRel t y x := by
  intro x hx
  unfold applyRule at hx
  rcases hfv : getByLabel as r.group r.param r.value with _ | v0
  · rw [hfv] at hx
    exact ⟨x, hx, dynRel_refl t x⟩
  · rw [hfv] at hx
    have hx2 : getByLabel
        (if lamA < v0.success_rate ∧ r.minStage ≤ as.zpd_timestamp then
          modifyByLabel as r.group r.param r.value fun u => { u with active := false }
        else as) gl pl vl = some x := hx
    by_cases hc : lamA < v0.success_rate ∧ r.minStage ≤ as.zpd_timestamp
    · rw [if_pos hc] at hx2
      rcases getByLabel_modifyByLabel_cases as r.group r.param r.value
          (fun u => { u with active := false }) (fun u => rfl) gl pl vl with
        h | ⟨y, hy, hy2⟩
      · rw [h] at hx2
        exact ⟨x, hx2, dynRel_refl t x⟩
      · rw [hy2] at hx2
        rw [← Option.some.inj hx2]
        exact ⟨y, hy, rfl, rfl, fun _ _ => rfl⟩
    · rw [if_neg hc] at hx2
      exact ⟨x, hx2, dynRel_refl t x⟩

theorem getByLabel_foldRules_rel (lamA : ℚ) (t : ℕ) (gl pl vl : String) :
    ∀ (rs : List DeactRule) (as : ActivitySpace) (x : Value),
      getByLabel (rs.foldl (applyRule lamA) as) gl pl vl = some x →
      ∃ y, getByLabel as gl pl vl = some y ∧ dynRel t y x := by
  intro rs
  induction rs with
  | nil => exact fun as x hx => ⟨x, hx, dynRel_refl t x⟩
  | cons r rs ih =>
    intro as x hx
    rw [List.foldl_cons] at hx
    obtain ⟨y1, hy1, hrel1⟩ := ih (applyRule lamA as r) x hx
    obtain ⟨y0, hy0, hrel0⟩ := getByLabel_applyRule_rel lamA t as r gl pl vl y1 hy1
    exact ⟨y0, hy0, dynRel_trans hrel0 hrel1 hrel1⟩

theorem passRel_dynRel {t : ℕ} {y x : Value} (h : passRel t y x) : dynRel t y x :=
  ⟨h.1, h.2.2.2.1, fun ha hn => by rw [h.2.2.2.2.2.2.1 hn]; exact ha⟩

theorem findVal_paramPass_rel (t : ℕ) (p : Param) (vl : String) :
    ∀ x, findVal (paramPass t p) vl = some x →
      ∃ y, findVal p vl = some y ∧ passRel t y x := by
  intro x hx
  unfold findVal at hx ⊢
  rw [show (paramPass t p).values = activatePass t p.values from rfl] at hx
  exact find?_exists_of_rel p.values (activatePass t p.values)
    (length_activatePass t p.values)
    (fun j a ha => by
      obtain ⟨b, hb, rel, _⟩ := activatePass_entry t p.values j a ha
      exact ⟨b, hb, rel, by rw [show b.label = a.label from rel.1]⟩) x hx

theorem findParamVal_groupPass_rel (t : ℕ) (g : Group) (pl vl : String) :
    ∀ x, findParamVal (groupPass t g) pl vl = some x →
      ∃ y, findParamVal g pl vl = some y ∧ passRel t y x := by
  intro x hx
  unfold findParamVal at hx ⊢
  rw [show (groupPass t g).params = g.params.map (paramPass t) from rfl,
    List.find?_map] at hx
  rw [show ((fun p : Param => decide (p.label = pl)) ∘ paramPass t) =
      (fun p : Param => decide (p.label = pl)) from rfl] at hx
  rcases hfp : g.params.find? (fun p => p.label = pl) with _ | p
  · rw [hfp] at hx; simp at hx
  · rw [hfp] at hx
    simp only [Option.map_some'] at hx
    rw [hfp]
    exact findVal_paramPass_rel t p vl x hx

theorem getByLabel_stagePhase_rel (z : ZPDES) (gl pl vl : String) :
    ∀ x, getByLabel (stagePhase z).A_S gl pl vl = some x →
      ∃ y, getByLabel z.A_S gl pl vl = some y ∧
        dynRel (z.A_S.zpd_timestamp + 1) y x := by
  intro x hx
  by_cases hc : expandCheck z = true
  · have hAS : (stagePhase z).A_S =
        ⟨z.A_S.zpd_timestamp + 1,
          z.A_S.groups.map (groupPass (z.A_S.zpd_timestamp + 1))⟩ := by
      unfold stagePhase
      rw [if_pos hc]
    rw [hAS] at hx
    unfold getByLabel at hx ⊢
    have hx2 : (match (z.A_S.groups.map
          (groupPass (z.A_S.zpd_timestamp + 1))).find? (fun g => g.label = gl) with
        | none => none
        | some g => findParamVal g pl vl) = some x := hx
    rw [List.find?_map] at hx2
    rw [show ((fun g : Group => decide (g.label = gl)) ∘
        groupPass (z.A_S.zpd_timestamp + 1)) =
        (fun g : Group => decide (g.label = gl)) from rfl] at hx2
    rcases hfg : z.A_S.groups.find? (fun g => g.label = gl) with _ | g
    · rw [hfg] at hx2; simp at hx2
    · rw [hfg] at hx2
      simp only [Option.map_some'] at hx2
      rw [hfg]
      obtain ⟨y, hy, rel⟩ := findParamVal_groupPass_rel (z.A_S.zpd_timestamp + 1)
        g pl vl x hx2
      exact ⟨y, hy, passRel_dynRel rel⟩
  · have hz : stagePhase z = z := by unfold stagePhase; rw [if_neg hc]
    rw [hz] at hx
    exact ⟨x, hx, dynRel_refl _ x⟩

set_option maxHeartbeats 2000000 in
theorem getByLabel_updateZPD_rel (z : ZPDES) (gl pl vl : String) :
    ∀ x, getByLabel (updateZPD z).A_S gl pl vl = some x →
      ∃ y, getByLabel z.A_S gl pl vl = some y ∧
        dynRel (z.A_S.zpd_timestamp + 1) y x := by
  intro x hx
  have hAS : (updateZPD z).A_S =
      deactRules.foldl (applyRule (stagePhase z).lambdaA) (stagePhase z).A_S := rfl
  rw [hAS] at hx
  obtain ⟨y1, hy1, hrel1⟩ := getByLabel_foldRules_rel (stagePhase z).lambdaA
    (z.A_S.zpd_timestamp + 1) gl pl vl deactRules (stagePhase z).A_S x hx
  obtain ⟨y0, hy0, hrel0⟩ := getByLabel_stagePhase_rel z gl pl vl y1 hy1
  exact ⟨y0, hy0, dynRel_trans hrel0 hrel1 hrel1⟩

theorem crFold_timestamp (d : ℕ) (C : ℚ) :
    ∀ (locs : List (ℕ × ℕ × ℕ)) (acc : ActivitySpace × List ℚ),
      (locs.foldl (crStep d C) acc).1.zpd_timestamp = acc.1.zpd_timestamp := by
  intro locs
  induction locs with
  | nil => exact fun acc => rfl
  | cons l locs ih =>
    intro acc
    rw [List.foldl_cons, ih]
    unfold crStep
    rcases getVal acc.1 l with _ | v
    · rfl
    · exact modVal_timestamp ..

theorem wFold_timestamp (beta eta : ℚ) :
    ∀ (pairs : List ((ℕ × ℕ × ℕ) × ℚ)) (as : ActivitySpace),
      (pairs.foldl (wStep beta eta) as).zpd_timestamp = as.zpd_timestamp := by
  intro pairs
  induction pairs with
  | nil => exact fun as => rfl
  | cons lr pairs ih =>
    intro as
    rw [List.foldl_cons, ih]
    exact modVal_timestamp ..

set_option maxHeartbeats 2000000 in
theorem update_eq_updateZPD (z : ZPDES) (e : List (List (ℕ × ℕ × ℕ))) (C : ℚ) :
    update z e C = updateZPD
      { (computeReward z e C).1 with
        A_S := (e.flatten.zip (computeReward z e C).2).foldl
          (wStep z.beta z.eta) (computeReward z e C).1.A_S } := rfl

theorem update_inner_timestamp (z : ZPDES) (e : List (List (ℕ × ℕ × ℕ))) (C : ℚ) :
    ((e.flatten.zip (computeReward z e C).2).foldl
      (wStep z.beta z.eta) (computeReward z e C).1.A_S).zpd_timestamp =
      z.A_S.zpd_timestamp := by
  rw [wFold_timestamp]
  show (e.flatten.foldl (crStep z.d C) (z.A_S, [])).1.zpd_timestamp = _
  rw [crFold_timestamp]

theorem update_timestamp_mono (z : ZPDES) (e : List (List (ℕ × ℕ × ℕ))) (C : ℚ) :
    z.A_S.zpd_timestamp ≤ (update z e C).A_S.zpd_timestamp := by
  rw [update_eq_updateZPD, updateZPD_timestamp]
  have h2 := update_inner_timestamp z e C
  split <;> simp only [h2] <;> omega

theorem getByLabel_update_rel (z : ZPDES) (e : List (List (ℕ × ℕ × ℕ))) (C : ℚ)
    (gl pl vl : String) :
    ∀ x, getByLabel (update z e C).A_S gl pl vl = some x →
      ∃ y, getByLabel z.A_S gl pl vl = some y ∧
        dynRel (z.A_S.zpd_timestamp + 1) y x := by
  intro x hx
  rw [update_eq_updateZPD] at hx
  obtain ⟨y2, hy2, hrel2⟩ := getByLabel_updateZPD_rel _ gl pl vl x hx
  rw [show ({ (computeReward z e C).1 with
      A_S := (e.flatten.zip (computeReward z e C).2).foldl
        (wStep z.beta z.eta) (computeReward z e C).1.A_S } : ZPDES).A_S =
    (e.flatten.zip (computeReward z e C).2).foldl
      (wStep z.beta z.eta) (computeReward z e C).1.A_S from rfl] at hy2 hrel2
  rw [update_inner_timestamp z e C] at hrel2
  obtain ⟨y1, hy1, hrel1⟩ := getByLabel_wFold_rel z.beta z.eta
    (z.A_S.zpd_timestamp + 1) gl pl vl _ _ y2 hy2
  have hy1' : getByLabel (e.flatten.foldl (crStep z.d C) (z.A_S, [])).1 gl pl vl =
      some y1 := hy1
  obtain ⟨y0, hy0, hrel0⟩ := getByLabel_crFold_rel z.d C
    (z.A_S.zpd_timestamp + 1) gl pl vl e.flatten (z.A_S, []) y1 hy1'
  exact ⟨y0, hy0, dynRel_trans hrel0 (dynRel_trans hrel1 hrel2 hrel2)
    (dynRel_trans hrel1 hrel2 hrel2)⟩

/-! ## Retirement: exact firing condition and irreversibility -/

theorem ruleInv_update (z : ZPDES) (e : List (List (ℕ × ℕ × ℕ))) (C : ℚ)
    (r : DeactRule) (h : ruleInv z r) : ruleInv (update z e C) r := by
  refine ⟨le_trans h.1 (update_timestamp_mono z e C), fun val hval => ?_⟩
  obtain ⟨y, hy, hrel⟩ := getByLabel_update_rel z e C r.group r.param r.value val hval
  obtain ⟨hact, hlt⟩ := h.2 y hy
  have hts := h.1
  refine ⟨hrel.2.2 hact (by omega), ?_⟩
  rw [hrel.2.1]
  exact hlt

theorem ruleInv_applyOps (r : DeactRule) :
    ∀ (ops : List (List (List (ℕ × ℕ × ℕ)) × ℚ)) (z : ZPDES),
      ruleInv z r → ruleInv (applyOps ops z) r := by
  intro ops
  induction ops with
  | nil => exact fun z h => h
  | cons op ops ih =>
    intro z h
    have hstep : applyOps (op :: ops) z = applyOps ops (update z op.1 op.2) := by
      unfold applyOps
      rw [List.foldl_cons]
    rw [hstep]
    exact ih (update z op.1 op.2) (ruleInv_update z op.1 op.2 r h)

theorem stagePhase_lambdaA (z : ZPDES) : (stagePhase z).lambdaA = z.lambdaA := by
  unfold stagePhase
  by_cases h : expandCheck z = true
  · rw [if_pos h]
  · rw [if_neg h]

theorem applyRule_self_spec (lamA : ℚ) (as : ActivitySpace) (r : DeactRule)
    (v : Value) (hv : getByLabel as r.group r.param r.value = some v) :
    getByLabel (applyRule lamA as r) r.group r.param r.value =
      some (if lamA < v.success_rate ∧ r.minStage ≤ as.zpd_timestamp then
        { v with active := false } else v) := by
  unfold applyRule
  rw [hv]
  show getByLabel (if lamA < v.success_rate ∧ r.minStage ≤ as.zpd_timestamp then
      modifyByLabel as r.group r.param r.value fun u => { u with active := false }
    else as) r.group r.param r.value = _
  by_cases hc : lamA < v.success_rate ∧ r.minStage ≤ as.zpd_timestamp
  · rw [if_pos hc, if_pos hc,
      getByLabel_modifyByLabel_self as r.group r.param r.value
        (fun u => { u with active := false }) (fun u => rfl), hv]
    rfl
  · rw [if_neg hc, if_neg hc]
    exact hv

theorem applyRule_frame (lamA : ℚ) (as : ActivitySpace) (r : DeactRule)
    (gl pl vl : String) (hne : ¬(r.group = gl ∧ r.param = pl ∧ r.value = vl)) :
    getByLabel (applyRule lamA as r) gl pl vl = getByLabel as gl pl vl := by
  unfold applyRule
  rcases hfv : getByLabel as r.group r.param r.value with _ | v0
  · rfl
  · show getByLabel (if lamA < v0.success_rate ∧ r.minStage ≤ as.zpd_timestamp then
        modifyByLabel as r.group r.param r.value fun u => { u with active := false }
      else as) gl pl vl = _
    by_cases hc : lamA < v0.success_rate ∧ r.minStage ≤ as.zpd_timestamp
    · rw [if_pos hc]
      exact getByLabel_modifyByLabel_ne as r.group r.param r.value gl pl vl
        (fun u => { u with active := false }) (fun u => rfl) hne
    · rw [if_neg hc]

theorem foldRules_frame (lamA : ℚ) :
    ∀ (rs : List DeactRule) (as : ActivitySpace) (gl pl vl : String),
      (∀ r' ∈ rs, ¬(r'.group = gl ∧ r'.param = pl ∧ r'.value = vl)) →
      getByLabel (rs.foldl (applyRule lamA) as) gl pl vl = getByLabel as gl pl vl := by
  intro rs
  induction rs with
  | nil => exact fun as gl pl vl _ => rfl
  | cons r rs ih =>
    intro as gl pl vl hne
    rw [List.foldl_cons, ih (applyRule lamA as r) gl pl vl
      (fun r' hr' => hne r' (List.mem_cons_of_mem _ hr')),
      applyRule_frame lamA as r gl pl vl (hne r (List.mem_cons_self ..))]

/-- On a rule table with pairwise-distinct target paths, the retirement fold
retires each rule's target exactly when that rule's condition holds in the
state the fold started from. -/
theorem foldRules_spec (lamA : ℚ) :
    ∀ rs : List DeactRule, rs.Pairwise pathNe →
      ∀ r ∈ rs, ∀ (as : ActivitySpace) (v : Value),
        getByLabel as r.group r.param r.value = some v →
        getByLabel (rs.foldl (applyRule lamA) as) r.group r.param r.value =
          some (if lamA < v.success_rate ∧ r.minStage ≤ as.zpd_timestamp then
            { v with active := false } else v) := by
  intro rs
  induction rs with
  | nil => intro _ r hr; simp at hr
  | cons r0 rest ih =>
    intro hpw r hr as v hv
    rw [List.foldl_cons]
    have hpw2 := List.pairwise_cons.mp hpw
    rcases List.mem_cons.mp hr with he | htl
    · subst he
      rw [foldRules_frame lamA rest (applyRule lamA as r) r.group r.param r.value
        (fun r' hr' hc => hpw2.1 r' hr' ⟨hc.1.symm, hc.2.1.symm, hc.2.2.symm⟩)]
      exact applyRule_self_spec lamA as r v hv
    · have hframe : getByLabel (applyRule lamA as r0) r.group r.param r.value =
          getByLabel as r.group r.param r.value :=
        applyRule_frame lamA as r0 r.group r.param r.value
          (fun hc => hpw2.1 r htl ⟨hc.1, hc.2.1, hc.2.2⟩)
      have hts : (applyRule lamA as r0).zpd_timestamp = as.zpd_timestamp :=
        applyRule_timestamp ..
      have hspec := ih hpw2.2 r htl (applyRule lamA as r0) v
        (by rw [hframe]; exact hv)
      rw [hts] at hspec
      exact hspec

theorem ruleInv_of_check (z : ZPDES) (r : DeactRule)
    (h1 : r.minStage ≤ z.A_S.zpd_timestamp)
    (h2 : (getByLabel z.A_S r.group r.param r.value).all
      (fun val => !val.active && decide (val.activation < r.minStage)) = true) :
    ruleInv z r := by
  refine ⟨h1, fun val hval => ?_⟩
  rw [hval] at h2
  simp only [Option.all] at h2
  rw [Bool.and_eq_true] at h2
  have ha : val.active = false := by
    cases hh : val.active
    · rfl
    · rw [hh] at h2
      exact absurd h2.1 (by simp)
  exact ⟨ha, of_decide_eq_true h2.2⟩

theorem opt_act_lt {o : Option Value} {m : ℕ}
    (h : o.map (fun val => decide (val.activation < m)) = some true) :
    ∃ val, o = some val ∧ val.activation < m := by
  cases o with
  | none => exact absurd h (by simp)
  | some a =>
    refine ⟨a, rfl, ?_⟩
    rw [Option.map_some'] at h
    exact of_decide_eq_true (Option.some.inj h)

set_option maxHeartbeats 2000000 in
/-- C5: each rule of the built-in retirement table deactivates its target
arm exactly when the arm's success rate exceeds `lambdaA` and the stage has
reached the rule's minimum (the condition read off the state the retirement
fold starts from); the retirement fold runs on every update cycle, since
every `update` ends in `updateZPD` on a state with the same `lambdaA` and
stage, whether or not advancement occurred; in the built-in configuration
every rule's target has an activation stage strictly below the rule's
minimum stage, so a fired rule establishes `ruleInv`; and `ruleInv` is
preserved by every further sequence of update cycles and keeps the target
inactive: retirement is irreversible. -/
theorem C5_retirement :
    (∀ (z : ZPDES) (r : DeactRule), r ∈ deactRules →
      ∀ v : Value, getByLabel (stagePhase z).A_S r.group r.param r.value = some v →
        getByLabel (updateZPD z).A_S r.group r.param r.value =
          some (if z.lambdaA < v.success_rate ∧
              r.minStage ≤ (stagePhase z).A_S.zpd_timestamp then
            { v with active := false } else v)) ∧
    (∀ (z : ZPDES) (e : List (List (ℕ × ℕ × ℕ))) (C : ℚ),
      ∃ z1 : ZPDES, update z e C = updateZPD z1 ∧ z1.lambdaA = z.lambdaA ∧
        z1.A_S.zpd_timestamp = z.A_S.zpd_timestamp) ∧
    (∀ r ∈ deactRules, ∃ val : Value,
      getByLabel initAS r.group r.param r.value = some val ∧
        val.activation < r.minStage) ∧
    (∀ (z : ZPDES) (r : DeactRule), ruleInv z r →
      ∀ ops : List (List (List (ℕ × ℕ × ℕ)) × ℚ), ruleInv (applyOps ops z) r ∧
        ∀ val : Value,
          getByLabel (applyOps ops z).A_S r.group r.param r.value = some val →
            val.active = false) := by
  refine ⟨?_, ?_, ?_, ?_⟩
  · intro z r hr v hv
    have h1 : (updateZPD z).A_S =
        deactRules.foldl (applyRule (stagePhase z).lambdaA) (stagePhase z).A_S := rfl
    rw [h1, stagePhase_lambdaA]
    exact foldRules_spec z.lambdaA deactRules (by decide) r hr (stagePhase z).A_S v hv
  · intro z e C
    exact ⟨{ (computeReward z e C).1 with
        A_S := (e.flatten.zip (computeReward z e C).2).foldl
          (wStep z.beta z.eta) (computeReward z e C).1.A_S },
      update_eq_updateZPD z e C, rfl, update_inner_timestamp z e C⟩
  · intro r hr
    fin_cases hr <;> exact opt_act_lt (by rw [initAS_eq]; decide)
  · intro z r hinv ops
    exact ⟨ruleInv_applyOps r ops z hinv,
      fun val hval => ((ruleInv_applyOps r ops z hinv).2 val hval).1⟩

set_option maxHeartbeats 2000000 in
/-- Witness for C5: on a concrete stage-6 engine the first rule's target
(level 1 of the flexibility-level group, success rate 0) survives the
retirement fold untouched; the rule's target resolves in the built-in
configuration with activation stage 1 < 3; and on an engine whose level-1
arm has been retired, the empty further run keeps `ruleInv` and the arm
inactive. -/
theorem C5_retirement_witness :
    (getByLabel (updateZPD z0C5).A_S "Flexibility Level" "Level" "level 1" =
      some (if z0C5.lambdaA < vC5.success_rate ∧
          (3 : ℕ) ≤ (stagePhase z0C5).A_S.zpd_timestamp then
        { vC5 with active := false } else vC5)) ∧
    (∃ val : Value, getByLabel initAS "Flexibility Level" "Level" "level 1" =
      some val ∧ val.activation < 3) ∧
    (ruleInv (applyOps [] zWC5) rWC5 ∧
      ∀ val : Value,
        getByLabel (applyOps [] zWC5).A_S rWC5.group rWC5.param rWC5.value =
          some val → val.active = false) := by
  refine ⟨?_, ?_, ?_⟩
  · exact C5_retirement.1 z0C5 rWC5 (by decide) vC5 (by decide)
  · exact C5_retirement.2.2.1 rWC5 (by decide)
  · exact C5_retirement.2.2.2 zWC5 rWC5
      (ruleInv_of_check zWC5 rWC5 (by decide) (by decide)) []

/-! ## Termination and shape of the traversal loop -/

theorem map_listModify_eq {β : Type} (g : α → β) (h : α → α)
    (hc : ∀ a, g (h a) = g a) : ∀ (i : ℕ) (l : List α),
    (listModify h i l).map g = l.map g := by
  intro i l
  induction l generalizing i with
  | nil => cases i <;> rfl
  | cons a as ih =>
    cases i with
    | zero => simp [listModify, hc]
    | succ n => simp [listModify, ih]

theorem map_modifyFirst_eq {β : Type} (q : α → Bool) (g : α → β) (h : α → α)
    (hc : ∀ a, g (h a) = g a) : ∀ l : List α,
    (modifyFirst q h l).map g = l.map g := by
  intro l
  induction l with
  | nil => rfl
  | cons a as ih =>
    simp only [modifyFirst]
    by_cases hq : q a
    · simp [hq, hc]
    · simp [hq, ih]

theorem pSkel_valModAt (i : ℕ) (f : Value → Value)
    (hf : ∀ v, vSkel (f v) = vSkel v) (p : Param) :
    pSkel (valModAt i f p) = pSkel p := by
  show (p.label, (listModify f i p.values).map vSkel) = (p.label, p.values.map vSkel)
  rw [map_listModify_eq vSkel f hf]

theorem gSkel_paramModAt (j i : ℕ) (f : Value → Value)
    (hf : ∀ v, vSkel (f v) = vSkel v) (g : Group) :
    gSkel (paramModAt j i f g) = gSkel g := by
  show (g.label, (listModify (valModAt i f) j g.params).map pSkel) =
    (g.label, g.params.map pSkel)
  rw [map_listModify_eq pSkel (valModAt i f) (pSkel_valModAt i f hf)]

theorem skel_modVal (as : ActivitySpace) (l : ℕ × ℕ × ℕ) (f : Value → Value)
    (hf : ∀ v, vSkel (f v) = vSkel v) : skel (modVal as l f) = skel as := by
  show (listModify (paramModAt l.2.1 l.2.2 f) l.1 as.groups).map gSkel =
    as.groups.map gSkel
  exact map_listModify_eq gSkel _ (gSkel_paramModAt l.2.1 l.2.2 f hf) l.1 as.groups

theorem skel_crStep (d : ℕ) (C : ℚ) (acc : ActivitySpace × List ℚ)
    (l : ℕ × ℕ × ℕ) : skel (crStep d C acc l).1 = skel acc.1 := by
  rcases hv : getVal acc.1 l with _ | v
  · simp only [crStep, hv]
  · simp only [crStep, hv]
    exact skel_modVal _ _ _ (fun u => rfl)

theorem skel_crFold (d : ℕ) (C : ℚ) :
    ∀ (locs : List (ℕ × ℕ × ℕ)) (ac : ActivitySpace × List ℚ),
      skel (locs.foldl (crStep d C) ac).1 = skel ac.1 := by
  intro locs
  induction locs with
  | nil => intro ac; rfl
  | cons l locs ih =>
    intro ac
    rw [List.foldl_cons, ih (crStep d C ac l), skel_crStep]

theorem skel_wStep (beta eta : ℚ) (as : ActivitySpace) (lr : (ℕ × ℕ × ℕ) × ℚ) :
    skel (wStep beta eta as lr) = skel as :=
  skel_modVal _ _ _ (fun u => rfl)

theorem skel_wFold (beta eta : ℚ) :
    ∀ (lrs : List ((ℕ × ℕ × ℕ) × ℚ)) (as : ActivitySpace),
      skel (lrs.foldl (wStep beta eta) as) = skel as := by
  intro lrs
  induction lrs with
  | nil => intro as; rfl
  | cons lr lrs ih =>
    intro as
    rw [List.foldl_cons, ih (wStep beta eta as lr), skel_wStep]

theorem vSkel_activate (v : Value) (vs : List Value) :
    vSkel (v.activate vs) = vSkel v := by
  unfold Value.activate
  by_cases h : v.active = true
  · rw [if_pos h]
  · rw [if_neg h]
    rfl

theorem map_vSkel_activateStep (t : ℕ) (vs : List Value) (i : ℕ) :
    (activateStep t vs i).map vSkel = vs.map vSkel := by
  rcases hv : vs[i]? with _ | v
  · simp only [activateStep, hv]
  · simp only [activateStep, hv]
    by_cases h : t = v.activation
    · rw [if_pos h]
      exact map_listModify_eq vSkel _
        (fun u => vSkel_activate u (listModify (fun w => { w with active := true }) i vs))
        i vs
    · rw [if_neg h]

theorem map_vSkel_activateFold (t : ℕ) :
    ∀ (l : List ℕ) (vs : List Value),
      (l.foldl (activateStep t) vs).map vSkel = vs.map vSkel := by
  intro l
  induction l with
  | nil => intro vs; rfl
  | cons i l ih =>
    intro vs
    rw [List.foldl_cons, ih (activateStep t vs i), map_vSkel_activateStep]

theorem gSkel_groupPass (t : ℕ) (g : Group) : gSkel (groupPass t g) = gSkel g := by
  show (g.label, (g.params.map (paramPass t)).map pSkel) = (g.label, g.params.map pSkel)
  rw [List.map_map]
  have h2 : ∀ p ∈ g.params, (pSkel ∘ paramPass t) p = pSkel p := by
    intro p _
    show pSkel (paramPass t p) = pSkel p
    show (p.label, (activatePass t p.values).map vSkel) = (p.label, p.values.map vSkel)
    rw [show activatePass t p.values =
      (List.range p.values.length).foldl (activateStep t) p.values from rfl,
      map_vSkel_activateFold]
  rw [List.map_congr_left h2]

theorem skel_stagePhase (z : ZPDES) : skel (stagePhase z).A_S = skel z.A_S := by
  unfold stagePhase
  by_cases h : expandCheck z = true
  · rw [if_pos h]
    show (z.A_S.groups.map (groupPass (z.A_S.zpd_timestamp + 1))).map gSkel =
      z.A_S.groups.map gSkel
    rw [List.map_map]
    exact List.map_congr_left fun g _ => gSkel_groupPass (z.A_S.zpd_timestamp + 1) g
  · rw [if_neg h]

theorem pSkel_valModF (vl : String) (f : Value → Value)
    (hf : ∀ v, vSkel (f v) = vSkel v) (p : Param) :
    pSkel (valModF vl f p) = pSkel p := by
  show (p.label, (modifyFirst (fun v => v.label = vl) f p.values).map vSkel) =
    (p.label, p.values.map vSkel)
  rw [map_modifyFirst_eq _ vSkel f hf]

theorem gSkel_paramModF (pl vl : String) (f : Value → Value)
    (hf : ∀ v, vSkel (f v) = vSkel v) (g : Group) :
    gSkel (paramModF pl vl f g) = gSkel g := by
  show (g.label, (modifyFirst (fun p => p.label = pl) (valModF vl f) g.params).map pSkel) =
    (g.label, g.params.map pSkel)
  rw [map_modifyFirst_eq _ pSkel (valModF vl f) (pSkel_valModF vl f hf)]

theorem skel_modifyByLabel (as : ActivitySpace) (gl pl vl : String)
    (f : Value → Value) (hf : ∀ v, vSkel (f v) = vSkel v) :
    skel (modifyByLabel as gl pl vl f) = skel as := by
  show (modifyFirst (fun g => g.label = gl) (paramModF pl vl f) as.groups).map gSkel =
    as.groups.map gSkel
  rw [map_modifyFirst_eq _ gSkel (paramModF pl vl f) (gSkel_paramModF pl vl f hf)]

theorem skel_applyRule (lamA : ℚ) (as : ActivitySpace) (r : DeactRule) :
    skel (applyRule lamA as r) = skel as := by
  rcases hv : getByLabel as r.group r.param r.value with _ | v
  · simp only [applyRule, hv]
  · simp only [applyRule, hv]
    by_cases hc : lamA < v.success_rate ∧ r.minStage ≤ as.zpd_timestamp
    · rw [if_pos hc]
      exact skel_modifyByLabel _ _ _ _ _ (fun u => rfl)
    · rw [if_neg hc]

theorem skel_foldRules (lamA : ℚ) :
    ∀ (rs : List DeactRule) (as : ActivitySpace),
      skel (rs.foldl (applyRule lamA) as) = skel as := by
  intro rs
  induction rs with
  | nil => intro as; rfl
  | cons r rs ih =>
    intro as
    rw [List.foldl_cons, ih (applyRule lamA as r), skel_applyRule]

set_option maxHeartbeats 2000000 in
theorem skel_updateZPD (w : ZPDES) : skel (updateZPD w).A_S = skel w.A_S := by
  show skel (deactRules.foldl (applyRule (stagePhase w).lambdaA) (stagePhase w).A_S) =
    skel w.A_S
  rw [skel_foldRules, skel_stagePhase]

theorem skel_update (z : ZPDES) (e : List (List (ℕ × ℕ × ℕ))) (C : ℚ) :
    skel (update z e C).A_S = skel z.A_S := by
  rw [update_eq_updateZPD, skel_updateZPD]
  show skel ((e.flatten.zip (computeReward z e C).2).foldl
    (wStep z.beta z.eta) (computeReward z e C).1.A_S) = skel z.A_S
  rw [skel_wFold]
  show skel (e.flatten.foldl (crStep z.d C) (z.A_S, [])).1 = skel z.A_S
  rw [skel_crFold]

theorem skel_applyOps :
    ∀ (ops : List (List (List (ℕ × ℕ × ℕ)) × ℚ)) (z : ZPDES),
      skel (applyOps ops z).A_S = skel z.A_S := by
  intro ops
  induction ops with
  | nil => intro z; rfl
  | cons op ops ih =>
    intro z
    have hstep : applyOps (op :: ops) z = applyOps ops (update z op.1 op.2) := by
      unfold applyOps
      rw [List.foldl_cons]
    rw [hstep, ih (update z op.1 op.2), skel_update]

theorem nextDecB_applyOps (ops : List (List (List (ℕ × ℕ × ℕ)) × ℚ)) (z : ZPDES)
    (rank : String → ℕ) :
    nextDecB (applyOps ops z).A_S rank = nextDecB z.A_S rank := by
  unfold nextDecB
  rw [skel_applyOps]

theorem rootLabel_eq_of_skel {as as' : ActivitySpace} (h : skel as = skel as') :
    rootLabel as = rootLabel as' := by
  have h2 : (skel as).head? = (skel as').head? := by rw [h]
  simp only [skel, List.head?_map] at h2
  rcases hh : as.groups.head? with _ | g <;> rcases hh' : as'.groups.head? with _ | g'
  · simp [rootLabel, hh, hh']
  · rw [hh, hh'] at h2
    simp at h2
  · rw [hh, hh'] at h2
    simp at h2
  · rw [hh, hh'] at h2
    simp only [Option.map_some', Option.some.injEq] at h2
    have hl : g.label = g'.label := congrArg Prod.fst h2
    simp [rootLabel, hh, hh', hl]

theorem rootLabel_applyOps (ops : List (List (List (ℕ × ℕ × ℕ)) × ℚ)) (z : ZPDES) :
    rootLabel (applyOps ops z).A_S = rootLabel z.A_S :=
  rootLabel_eq_of_skel (skel_applyOps ops z)

theorem nextDecB_spec {as : ActivitySpace} {rank : String → ℕ}
    (hd : nextDecB as rank = true) :
    ∀ g ∈ as.groups, ∀ p ∈ g.params, ∀ v ∈ p.values, ∀ nl, v.next = some nl →
      rank nl < rank g.label := by
  intro g hg p hp v hv nl hnl
  unfold nextDecB skelDec skel at hd
  have h1 := (List.all_eq_true.mp hd) (gSkel g) (List.mem_map_of_mem gSkel hg)
  have h2 := (List.all_eq_true.mp h1) (pSkel p) (List.mem_map_of_mem pSkel hp)
  have h3 := (List.all_eq_true.mp h2) (vSkel v) (List.mem_map_of_mem vSkel hv)
  have h4 : (match v.next with
    | none => true
    | some nl => decide (rank nl < rank (gSkel g).1)) = true := h3
  rw [hnl] at h4
  exact of_decide_eq_true h4

theorem rankMeasure_next (rank : String → ℕ) (z : ZPDES) (g : Group)
    (hd : nextDecB z.A_S rank = true) (hg : g ∈ z.A_S.groups)
    (p : Param) (hp : p ∈ g.params) (u : Value) (hu : u ∈ p.values) :
    rankMeasure rank u.next ≤ rank g.label := by
  cases hnx : u.next with
  | none => simp [rankMeasure]
  | some nl =>
    have := nextDecB_spec hd g hg p hp u hu nl hnx
    simp only [rankMeasure]
    omega

theorem sampleValuesS_getLast_mem (z : ZPDES) (eexp : ℚ → ℚ) (o : ℕ → ℕ)
    (g : Group) (k : ℕ) (h : List Value) (u : Value)
    (hok : (sampleValuesS z eexp o k g.params g.weight).1 = .ok h)
    (hlast : h.getLast? = some u) : ∃ p ∈ g.params, u ∈ p.values := by
  have hok' : (sampleValuesS z eexp o k g.params (g.params.map Param.weight)).1 = .ok h := by
    rw [show g.params.map Param.weight = g.weight from rfl]
    exact hok
  have hspec := sampleValuesS_ok_spec z eexp o g.params k h hok'
  have hne : h ≠ [] := by
    intro hh
    rw [hh] at hlast
    simp at hlast
  have hpos : 0 < h.length := List.length_pos.mpr hne
  have hjlt : h.length - 1 < g.params.length := by
    rw [← hspec.1]
    omega
  obtain ⟨p, hp⟩ : ∃ p, g.params[h.length - 1]? = some p :=
    ⟨g.params[h.length - 1], List.getElem?_eq_getElem hjlt⟩
  obtain ⟨v, hv, hvmem, _⟩ := hspec.2 (h.length - 1) p hp
  have hlast' : h[h.length - 1]? = some u := by
    rw [← List.getLast?_eq_getElem?]
    exact hlast
  rw [hlast'] at hv
  exact ⟨p, List.getElem?_mem hp, by rw [Option.some.inj hv]; exact hvmem⟩

theorem genLoopS_measure_indep (eexp : ℚ → ℚ) (o : ℕ → ℕ) (rank : String → ℕ) :
    ∀ (fuel : ℕ) (z : ZPDES) (k : ℕ) (nx : Option String) (fuel' : ℕ),
      nextDecB z.A_S rank = true →
      rankMeasure rank nx ≤ fuel → rankMeasure rank nx ≤ fuel' →
      genLoopS z eexp o k nx fuel = genLoopS z eexp o k nx fuel' := by
  intro fuel
  induction fuel with
  | zero =>
    intro z k nx fuel' hd hm hm'
    cases nx with
    | none => cases fuel' <;> rfl
    | some lbl => simp [rankMeasure] at hm
  | succ fuel ih =>
    intro z k nx fuel' hd hm hm'
    cases nx with
    | none => cases fuel' <;> rfl
    | some lbl =>
      cases fuel' with
      | zero => simp [rankMeasure] at hm'
      | succ fuel2 =>
        simp only [genLoopS]
        rcases hg : z.A_S.groups.find? (fun g => g.label = lbl) with _ | g
        · simp only [hg]
        · simp only [hg]
          rcases hs : sampleValuesS z eexp o k g.params g.weight with ⟨er | h, z1⟩
          · simp only [hs]
          · simp only [hs]
            have hz1 : z1 = z := by
              have := sampleValuesS_state z eexp o g.params g.weight k
              rw [hs] at this
              simpa using this
            rcases hl : h.getLast? with _ | u
            · simp only [hl]
            · simp only [hl]
              obtain ⟨p, hp, hu⟩ := sampleValuesS_getLast_mem z eexp o g k h u
                (by rw [hs]) hl
              have hgmem : g ∈ z.A_S.groups := List.mem_of_find?_eq_some hg
              have hpg := List.find?_some hg
              have hglbl : g.label = lbl := of_decide_eq_true hpg
              have hmeas : rankMeasure rank u.next ≤ rank lbl := by
                rw [← hglbl]
                exact rankMeasure_next rank z g hd hgmem p hp u hu
              have hm2 : rank lbl + 1 ≤ fuel + 1 := hm
              have hm2' : rank lbl + 1 ≤ fuel2 + 1 := hm'
              rw [ih z1 (k + g.params.length) u.next fuel2
                (by rw [hz1]; exact hd) (by omega) (by omega)]
  
theorem npChoice_error_form (r : ℕ) (cands : List Value) (p : List ℚ)
    (m : String) (h : npChoice r cands p = .error m) : m = "a must be non-empty" := by
  cases cands with
  | nil =>
    simp only [npChoice, Except.error.injEq] at h
    exact h.symm
  | cons c cs => simp [npChoice] at h

theorem sampleValuesS_error_forms (z : ZPDES) (eexp : ℚ → ℚ) (o : ℕ → ℕ) :
    ∀ (Hx : List Param) (Wx : List (List ℚ)) (k : ℕ) (m : String) (z1 : ZPDES),
      sampleValuesS z eexp o k Hx Wx = (.error m, z1) →
      m = "list index out of range" ∨ m = "a must be non-empty" := by
  intro Hx
  induction Hx with
  | nil =>
    intro Wx k m z1 h
    simp [sampleValuesS] at h
  | cons p Hx ih =>
    intro Wx k m z1 h
    cases Wx with
    | nil =>
      simp only [sampleValuesS, Prod.mk.injEq, Except.error.injEq] at h
      exact Or.inl h.1.symm
    | cons w Wx =>
      simp only [sampleValuesS] at h
      by_cases hlen : p.values.length < w.length
      · rw [if_pos hlen] at h
        simp only [Prod.mk.injEq, Except.error.injEq] at h
        exact Or.inl h.1.symm
      · rw [if_neg hlen] at h
        rcases hc : npChoice (o k) (((p.values.zip w).filter fun vw => vw.1.active).map
            fun vw => vw.1)
            (probVec eexp z.gamma z.softmax_factor
              (((p.values.zip w).filter fun vw => vw.1.active).map fun vw => vw.2)) with
          m0 | u
        · rw [hc] at h
          simp only [Prod.mk.injEq, Except.error.injEq] at h
          rw [← h.1]
          exact Or.inr (npChoice_error_form _ _ _ m0 hc)
        · rw [hc] at h
          rcases hr : sampleValuesS z eexp o (k + 1) Hx Wx with ⟨er | rest, z2⟩
          · rw [hr] at h
            simp only [Prod.mk.injEq, Except.error.injEq] at h
            rw [← h.1]
            exact ih Wx (k + 1) er z2 hr
          · rw [hr] at h
            simp at h

theorem genLoopS_no_timeout (eexp : ℚ → ℚ) (o : ℕ → ℕ) (rank : String → ℕ) :
    ∀ (fuel : ℕ) (z : ZPDES) (k : ℕ) (nx : Option String),
      nextDecB z.A_S rank = true → rankMeasure rank nx ≤ fuel →
      ∀ (m : String) (z2 : ZPDES), genLoopS z eexp o k nx fuel = (.error m, z2) →
        m ≠ "loop does not terminate" := by
  intro fuel
  induction fuel with
  | zero =>
    intro z k nx hd hm m z2 h
    cases nx with
    | none => simp [genLoopS] at h
    | some lbl => simp [rankMeasure] at hm
  | succ fuel ih =>
    intro z k nx hd hm m z2 h
    cases nx with
    | none => simp [genLoopS] at h
    | some lbl =>
      simp only [genLoopS] at h
      rcases hg : z.A_S.groups.find? (fun g => g.label = lbl) with _ | g
      · simp only [hg] at h
        simp only [Prod.mk.injEq, Except.error.injEq] at h
        rw [← h.1]
        decide
      · simp only [hg] at h
        rcases hs : sampleValuesS z eexp o k g.params g.weight with ⟨er | hh, z1⟩
        · simp only [hs] at h
          simp only [Prod.mk.injEq, Except.error.injEq] at h
          rw [← h.1]
          rcases sampleValuesS_error_forms z eexp o g.params g.weight k er z1 hs with
            he | he <;> rw [he] <;> decide
        · simp only [hs] at h
          have hz1 : z1 = z := by
            have := sampleValuesS_state z eexp o g.params g.weight k
            rw [hs] at this
            simpa using this
          rcases hl : hh.getLast? with _ | u
          · simp only [hl] at h
            simp only [Prod.mk.injEq, Except.error.injEq] at h
            rw [← h.1]
            decide
          · simp only [hl] at h
            rcases hrr : genLoopS z1 eexp o (k + g.params.length) u.next fuel with
              ⟨er2 | rest, z3⟩
            · simp only [hrr] at h
              simp only [Prod.mk.injEq, Except.error.injEq] at h
              rw [← h.1]
              obtain ⟨p, hp, hu⟩ := sampleValuesS_getLast_mem z eexp o g k hh u
                (by rw [hs]) hl
              have hgmem : g ∈ z.A_S.groups := List.mem_of_find?_eq_some hg
              have hpg := List.find?_some hg
              have hglbl : g.label = lbl := of_decide_eq_true hpg
              have hmeas : rankMeasure rank u.next ≤ rank lbl := by
                rw [← hglbl]
                exact rankMeasure_next rank z g hd hgmem p hp u hu
              have hm2 : rank lbl + 1 ≤ fuel + 1 := hm
              exact ih z1 (k + g.params.length) u.next (by rw [hz1]; exact hd)
                (by omega) er2 z3 hrr
            · simp only [hrr] at h
              simp at h

theorem genActivityS_measure_indep (eexp : ℚ → ℚ) (o : ℕ → ℕ) (rank : String → ℕ)
    (z : ZPDES) (fuel fuel' : ℕ) (hd : nextDecB z.A_S rank = true)
    (hb : ∀ lbl0, rootLabel z.A_S = some lbl0 → rank lbl0 ≤ fuel ∧ rank lbl0 ≤ fuel') :
    genActivityS z eexp o fuel = genActivityS z eexp o fuel' := by
  simp only [genActivityS]
  rcases hgs : z.A_S.groups with _ | ⟨g0, gs⟩
  · simp only [hgs]
  · simp only [hgs]
    have hroot : rootLabel z.A_S = some g0.label := by simp [rootLabel, hgs]
    obtain ⟨hb1, hb2⟩ := hb g0.label hroot
    rcases hs : sampleValuesS z eexp o 0 g0.params g0.weight with ⟨er | h1, z1⟩
    · simp only [hs]
    · simp only [hs]
      have hz1 : z1 = z := by
        have := sampleValuesS_state z eexp o g0.params g0.weight 0
        rw [hs] at this
        simpa using this
      rcases hl : h1.getLast? with _ | u
      · simp only [hl]
      · simp only [hl]
        obtain ⟨p, hp, hu⟩ := sampleValuesS_getLast_mem z eexp o g0 0 h1 u
          (by rw [hs]) hl
        have hg0mem : g0 ∈ z.A_S.groups := by
          rw [hgs]
          exact List.mem_cons_self ..
        have hmeas := rankMeasure_next rank z g0 hd hg0mem p hp u hu
        rw [genLoopS_measure_indep eexp o rank fuel z1 h1.length u.next fuel'
          (by rw [hz1]; exact hd) (le_trans hmeas hb1) (le_trans hmeas hb2)]

theorem genActivityS_no_timeout (eexp : ℚ → ℚ) (o : ℕ → ℕ) (rank : String → ℕ)
    (z : ZPDES) (fuel : ℕ) (hd : nextDecB z.A_S rank = true)
    (hb : ∀ lbl0, rootLabel z.A_S = some lbl0 → rank lbl0 ≤ fuel) :
    ∀ (m : String) (z2 : ZPDES), genActivityS z eexp o fuel = (.error m, z2) →
      m ≠ "loop does not terminate" := by
  intro m z2 h
  rcases hgs : z.A_S.groups with _ | ⟨g0, gs⟩
  · simp only [genActivityS, hgs, Prod.mk.injEq, Except.error.injEq] at h
    rw [← h.1]
    decide
  · simp only [genActivityS, hgs] at h
    have hroot : rootLabel z.A_S = some g0.label := by simp [rootLabel, hgs]
    have hb1 := hb g0.label hroot
    rcases hs : sampleValuesS z eexp o 0 g0.params g0.weight with ⟨er | h1, z1⟩
    · simp only [hs] at h
      simp only [Prod.mk.injEq, Except.error.injEq] at h
      rw [← h.1]
      rcases sampleValuesS_error_forms z eexp o g0.params g0.weight 0 er z1 hs with
        he | he <;> rw [he] <;> decide
    · simp only [hs] at h
      have hz1 : z1 = z := by
        have := sampleValuesS_state z eexp o g0.params g0.weight 0
        rw [hs] at this
        simpa using this
      rcases hl : h1.getLast? with _ | u
      · simp only [hl] at h
        simp only [Prod.mk.injEq, Except.error.injEq] at h
        rw [← h.1]
        decide
      · simp only [hl] at h
        rcases hrr : genLoopS z1 eexp o h1.length u.next fuel with ⟨er2 | rest, z3⟩
        · simp only [hrr] at h
          simp only [Prod.mk.injEq, Except.error.injEq] at h
          rw [← h.1]
          obtain ⟨p, hp, hu⟩ := sampleValuesS_getLast_mem z eexp o g0 0 h1 u
            (by rw [hs]) hl
          have hg0mem : g0 ∈ z.A_S.groups := by
            rw [hgs]
            exact List.mem_cons_self ..
          have hmeas := rankMeasure_next rank z g0 hd hg0mem p hp u hu
          exact genLoopS_no_timeout eexp o rank fuel z1 h1.length u.next
            (by rw [hz1]; exact hd) (le_trans hmeas hb1) er2 z3 hrr
        · simp only [hrr] at h
          simp at h

theorem genLoopS_chainOk (eexp : ℚ → ℚ) (o : ℕ → ℕ) :
    ∀ (fuel : ℕ) (z : ZPDES) (k : ℕ) (nx : Option String) (hs : List (List Value))
      (z2 : ZPDES), genLoopS z eexp o k nx fuel = (.ok hs, z2) →
      chainOk z.A_S nx hs := by
  intro fuel
  induction fuel with
  | zero =>
    intro z k nx hs z2 h
    cases nx with
    | none =>
      simp only [genLoopS, Prod.mk.injEq, Except.ok.injEq] at h
      rw [← h.1]
      rfl
    | some lbl => simp [genLoopS] at h
  | succ fuel ih =>
    intro z k nx hs z2 h
    cases nx with
    | none =>
      simp only [genLoopS, Prod.mk.injEq, Except.ok.injEq] at h
      rw [← h.1]
      rfl
    | some lbl =>
      simp only [genLoopS] at h
      rcases hg : z.A_S.groups.find? (fun g => g.label = lbl) with _ | g
      · simp only [hg] at h
        simp at h
      · simp only [hg] at h
        rcases hsamp : sampleValuesS z eexp o k g.params g.weight with ⟨er | hh, z1⟩
        · simp only [hsamp] at h
          simp at h
        · simp only [hsamp] at h
          have hz1 : z1 = z := by
            have := sampleValuesS_state z eexp o g.params g.weight k
            rw [hsamp] at this
            simpa using this
          rcases hl : hh.getLast? with _ | u
          · simp only [hl] at h
            simp at h
          · simp only [hl] at h
            rcases hrr : genLoopS z1 eexp o (k + g.params.length) u.next fuel with
              ⟨er2 | rest, z3⟩
            · simp only [hrr] at h
              simp at h
            · simp only [hrr] at h
              simp only [Prod.mk.injEq, Except.ok.injEq] at h
              rw [← h.1]
              show ∃ g1 u1, z.A_S.groups.find? (fun g2 => g2.label = lbl) = some g1 ∧
                hh.length = g1.params.length ∧ hh.getLast? = some u1 ∧
                chainOk z.A_S u1.next rest
              refine ⟨g, u, hg, ?_, hl, ?_⟩
              · have hok : (sampleValuesS z eexp o k g.params
                    (g.params.map Param.weight)).1 = .ok hh := by
                  rw [show g.params.map Param.weight = g.weight from rfl, hsamp]
                exact (sampleValuesS_ok_spec z eexp o g.params k hh hok).1
              · have hc := ih z1 (k + g.params.length) u.next rest z3 hrr
                rw [hz1] at hc
                exact hc

theorem genActivityS_shape (z : ZPDES) (eexp : ℚ → ℚ) (o : ℕ → ℕ) (fuel : ℕ)
    (e : List (List Value)) (s : String)
    (h : (genActivityS z eexp o fuel).1 = .ok (e, s)) :
    ∃ g0 t h1 rest u, z.A_S.groups = g0 :: t ∧ e = h1 :: rest ∧
      h1.length = g0.params.length ∧ h1.getLast? = some u ∧
      chainOk z.A_S u.next rest := by
  rcases hgs : z.A_S.groups with _ | ⟨g0, gs⟩
  · simp only [genActivityS, hgs] at h
    exact absurd h (by simp)
  · simp only [genActivityS, hgs] at h
    rcases hs : sampleValuesS z eexp o 0 g0.params g0.weight with ⟨er | h1, z1⟩
    · simp only [hs] at h
      simp at h
    · simp only [hs] at h
      have hz1 : z1 = z := by
        have := sampleValuesS_state z eexp o g0.params g0.weight 0
        rw [hs] at this
        simpa using this
      rcases hl : h1.getLast? with _ | u
      · simp only [hl] at h
        simp at h
      · simp only [hl] at h
        rcases hrr : genLoopS z1 eexp o h1.length u.next fuel with ⟨er2 | rest, z3⟩
        · simp only [hrr] at h
          simp at h
        · simp only [hrr] at h
          simp only [Except.ok.injEq, Prod.mk.injEq] at h
          refine ⟨g0, gs, h1, rest, u, rfl, h.1.symm, ?_, hl, ?_⟩
          · have hok : (sampleValuesS z eexp o 0 g0.params
                (g0.params.map Param.weight)).1 = .ok h1 := by
              rw [show g0.params.map Param.weight = g0.weight from rfl, hs]
            exact (sampleValuesS_ok_spec z eexp o g0.params 0 h1 hok).1
          · have hc := genLoopS_chainOk eexp o fuel z1 h1.length u.next rest z3 hrr
            rw [hz1] at hc
            exact hc

set_option maxHeartbeats 2000000 in
/-- C7: on the built-in reference configuration `genActivity` always
terminates, whatever the draws and whatever update cycles preceded it: the
routing graph of the built-in activity space is a DAG (witnessed by the rank
check `nextDecB`, which no update cycle ever changes), so from the root
group onward the traversal reaches a group whose drawn routing arm has no
successor within 4 group visits — the outcome is the same for every fuel
bound of at least 4 and is never the fuel-exhaustion marker; moreover every
successfully returned activity consists of the first group's draws followed
by a chain of blocks, one drawn arm per parameter of each visited group,
each block reached by the previous block's last drawn arm; and the first
registered group of the reference configuration is `Type`. -/
theorem C7_termination :
    (∀ (gamma : ℚ) (d : ℕ) (lambdaZPD lambdaA beta eta softmax_factor : ℚ)
        (ops : List (List (List (ℕ × ℕ × ℕ)) × ℚ)) (eexp : ℚ → ℚ) (o : ℕ → ℕ)
        (fuel : ℕ), 4 ≤ fuel →
      genActivityS (applyOps ops
          (initZPDES gamma d lambdaZPD lambdaA beta eta softmax_factor)) eexp o fuel =
        genActivityS (applyOps ops
          (initZPDES gamma d lambdaZPD lambdaA beta eta softmax_factor)) eexp o 4 ∧
      (genActivityS (applyOps ops
          (initZPDES gamma d lambdaZPD lambdaA beta eta softmax_factor)) eexp o
        fuel).1 ≠ .error "loop does not terminate") ∧
    (∀ (z : ZPDES) (eexp : ℚ → ℚ) (o : ℕ → ℕ) (fuel : ℕ)
        (e : List (List Value)) (s : String),
      (genActivityS z eexp o fuel).1 = .ok (e, s) →
      ∃ g0 t h1 rest u, z.A_S.groups = g0 :: t ∧ e = h1 :: rest ∧
        h1.length = g0.params.length ∧ h1.getLast? = some u ∧
        chainOk z.A_S u.next rest) ∧
    rootLabel initAS = some "Type" ∧
    nextDecB initAS refRank = true := by
  refine ⟨?_, ?_, ?_, ?_⟩
  · intro gamma d lambdaZPD lambdaA beta eta softmax_factor ops eexp o fuel hfuel
    have hd : nextDecB (applyOps ops
        (initZPDES gamma d lambdaZPD lambdaA beta eta softmax_factor)).A_S
        refRank = true := by
      rw [nextDecB_applyOps]
      show nextDecB initAS refRank = true
      rw [initAS_eq]
      decide
    have hroot : rootLabel (applyOps ops
        (initZPDES gamma d lambdaZPD lambdaA beta eta softmax_factor)).A_S =
        some "Type" := by
      rw [rootLabel_applyOps]
      show rootLabel initAS = some "Type"
      rw [initAS_eq]
      decide
    have hb : ∀ lbl0, rootLabel (applyOps ops
        (initZPDES gamma d lambdaZPD lambdaA beta eta softmax_factor)).A_S =
        some lbl0 → refRank lbl0 ≤ fuel ∧ refRank lbl0 ≤ 4 := by
      intro lbl0 hl0
      rw [hroot] at hl0
      have hh : lbl0 = "Type" := (Option.some.inj hl0).symm
      subst hh
      have h4 : refRank "Type" = 4 := by decide
      rw [h4]
      omega
    refine ⟨genActivityS_measure_indep eexp o refRank _ fuel 4 hd hb, ?_⟩
    intro hcontra
    exact genActivityS_no_timeout eexp o refRank _ fuel hd
      (fun l0 hl0 => (hb l0 hl0).1) "loop does not terminate"
      (genActivityS (applyOps ops
        (initZPDES gamma d lambdaZPD lambdaA beta eta softmax_factor)) eexp o fuel).2
      (Prod.ext hcontra rfl) rfl
  · exact fun z eexp o fuel e s h => genActivityS_shape z eexp o fuel e s h
  · rw [initAS_eq]
    decide
  · rw [initAS_eq]
    decide

set_option maxHeartbeats 2000000 in
/-- Witness for C7: with the always-first oracle and no preceding update
cycle, the generated activity is flexibility, extension, peek-a-boo,
level 1 (codes `FEPB1`); fuel 5 and fuel 4 agree, no fuel exhaustion is
reported, and the result chains one drawn arm per parameter of each of the
four visited groups. -/
theorem C7_termination_witness :
    (genActivityS (applyOps [] (initZPDES 0 1 0 0 0 0 0)) eexpC7 oC7 5 =
       genActivityS (applyOps [] (initZPDES 0 1 0 0 0 0 0)) eexpC7 oC7 4 ∧
     (genActivityS (applyOps [] (initZPDES 0 1 0 0 0 0 0)) eexpC7 oC7 5).1 ≠
       .error "loop does not terminate") ∧
    (∃ g0 t h1 rest u, zC7.A_S.groups = g0 :: t ∧ eC7 = h1 :: rest ∧
      h1.length = g0.params.length ∧ h1.getLast? = some u ∧
      chainOk zC7.A_S u.next rest) := by
  constructor
  · exact C7_termination.1 0 1 0 0 0 0 0 [] eexpC7 oC7 5 (by decide)
  · exact C7_termination.2.1 zC7 eexpC7 oC7 4 eC7 sC7 (by rfl)

end Zpdes
